import Mathlib

/-!
# Verification of the HLS ↔ LP DAAC reconciliation engine

A shallow embedding, in Lean 4, of the reconciliation-report processing
engine of the `hls-lpdaac-reconciliation` repository, together with proofs
of the behavioural properties stated in its natural-language specification.

The embedding mirrors the Python sources:

* `hls_lpdaac_reconciliation/response/__init__.py` —
  `granule_id_for_file`, `extract_report_location`, `group_granule_ids`,
  `notification_trigger_key`;
* `hls_lpdaac_reconciliation/response/index.py` —
  `Status`, `process_granule`, `process_collection`, `process_report`,
  `handler` (the response handler);
* `hls_lpdaac_reconciliation/generate_report/index.py` —
  `_wait_query_execution`, `write_results_to_s3`, the report output path.

Python strings are modelled as Lean `String`/`List Char`; Python dicts as
association lists built by an insert-or-replace operation with the same
ordering semantics (a key keeps its first-insertion position); exceptions
as `Option`/`Except`; the external S3/CMR collaborators as explicit state
and oracle functions, with every external call recorded in an effect
trace.
-/

namespace HlsReconciliation

/-! ## Basic string helpers shared by the embedding -/

/-- `needle` occurs as a contiguous substring of `hay` (Python's `in`
operator on strings), on the underlying character lists. -/
def listContainsSub (hay needle : List Char) : Bool :=
  match hay with
  | [] => needle.isEmpty
  | _ :: t => needle.isPrefixOf hay || listContainsSub t needle

/-- Python's `needle in hay` for strings. -/
def strContainsSub (hay needle : String) : Bool :=
  listContainsSub hay.data needle.data

/-- Python's `str.split(sep)` for a single-character separator, on character
lists: `"".split(".") == [""]`, `"a..b".split(".") == ["a", "", "b"]`. -/
def splitChar (sep : Char) : List Char → List (List Char)
  | [] => [[]]
  | c :: t =>
    if c = sep then
      [] :: splitChar sep t
    else
      match splitChar sep t with
      | h :: r => (c :: h) :: r
      | [] => [[c]]

/-- Python's `str.split(sep)` for a single-character separator. -/
def strSplit (s : String) (sep : Char) : List String :=
  (splitChar sep s.data).map String.mk

/-! ## `notification_trigger_key` (`response/__init__.py`, lines 127–138)

```python
def notification_trigger_key(granule_id: str) -> str:
    # Example: HLS.S30.T15XWH.2024237T194859.v2.0
    # 'HLS', 'S30', 'T15XWH', '2024237T194859', ['v2', '0']
    prefix, instrument, _tile_id, datetime, *_version = granule_id.split(".")
    # Prefix is either HLS or HLS-VI
    _hls, *vi = prefix.split("-")
    date, _time = datetime.split("T")

    return (
        f"{instrument}{'_VI' if vi else ''}/data/{date}/{granule_id}/{granule_id}.json"
    )
```

`String.splitOn` has the same semantics as Python's `str.split` with an
explicit separator.  The unpacking `prefix, instrument, _tile_id, datetime,
*_version = ...` raises `ValueError` when there are fewer than 4 fields, and
`date, _time = datetime.split("T")` raises `ValueError` when the fourth
field does not split into exactly two parts on `"T"`; both surface here as
`none`. -/
def notification_trigger_key (granule_id : String) : Option String :=
  match strSplit granule_id '.' with
  | pfx :: instrument :: _tile_id :: datetime :: _version =>
    match strSplit datetime 'T' with
    | [date, _time] =>
      -- `_hls, *vi = prefix.split("-")`: `vi` is nonempty iff the split
      -- has at least two parts.
      let vi := ((strSplit pfx '-').drop 1) ≠ []
      some
        (instrument ++ (if vi then "_VI" else "") ++ "/data/" ++ date ++ "/"
          ++ granule_id ++ "/" ++ granule_id ++ ".json")
    | _ => none
  | _ => none

example :
    notification_trigger_key "HLS.S30.T15XWH.2024237T194859.v2.0" =
      some
        ("S30/data/2024237/HLS.S30.T15XWH.2024237T194859.v2.0/HLS.S30.T15XWH.2024237T194859.v2.0.json") := by
  rfl

example :
    notification_trigger_key "HLS-VI.L30.T15XWH.2024237T194859.v2.0" =
      some
        ("L30_VI/data/2024237/HLS-VI.L30.T15XWH.2024237T194859.v2.0/HLS-VI.L30.T15XWH.2024237T194859.v2.0.json") := by
  rfl

example : notification_trigger_key "HLS.S30.T15XWH" = none := by rfl

example : notification_trigger_key "HLS.S30.T15XWH.2024237" = none := by rfl

/-! ### Facts about `splitChar` -/

theorem splitChar_ne_nil (sep : Char) (l : List Char) : splitChar sep l ≠ [] := by
  induction l with
  | nil => simp [splitChar]
  | cons c t ih =>
    simp only [splitChar]
    by_cases h : c = sep
    · simp [h]
    · simp only [h, if_false]
      cases hs : splitChar sep t with
      | nil => exact absurd hs ih
      | cons a r => simp

/-- The split has at least two parts exactly when the separator occurs. -/
theorem splitChar_two_le_iff (sep : Char) (l : List Char) :
    2 ≤ (splitChar sep l).length ↔ sep ∈ l := by
  induction l with
  | nil => simp [splitChar]
  | cons c t ih =>
    simp only [splitChar]
    by_cases h : c = sep
    · subst h
      have := splitChar_ne_nil c t
      constructor
      · intro _; exact List.mem_cons_self c t
      · intro _
        have : 1 ≤ (splitChar c t).length := by
          cases hs : splitChar c t with
          | nil => exact absurd hs this
          | cons a r => simp
        simpa using Nat.succ_le_succ this
    · simp only [h, if_false]
      cases hs : splitChar sep t with
      | nil => exact absurd hs (splitChar_ne_nil sep t)
      | cons a r =>
        rw [hs] at ih
        simp only [List.length_cons] at ih ⊢
        constructor
        · intro hlen
          exact List.mem_cons_of_mem c (ih.mp hlen)
        · intro hmem
          rcases List.mem_cons.mp hmem with hc | hm
          · exact absurd hc.symm h
          · exact ih.mpr hm

/-- The first part of the split is the run of characters before the first
separator. -/
theorem splitChar_head (sep : Char) (l : List Char) :
    ∃ r, splitChar sep l = l.takeWhile (fun c => c ≠ sep) :: r := by
  induction l with
  | nil => exact ⟨[], rfl⟩
  | cons c t ih =>
    simp only [splitChar]
    by_cases h : c = sep
    · subst h
      refine ⟨splitChar c t, ?_⟩
      simp [List.takeWhile]
    · obtain ⟨r, hr⟩ := ih
      rw [hr]
      refine ⟨r, ?_⟩
      simp [List.takeWhile, h]

/-- A one-character needle occurs as a substring exactly when the character
occurs in the haystack. -/
theorem listContainsSub_singleton (hay : List Char) (c : Char) :
    listContainsSub hay [c] = true ↔ c ∈ hay := by
  induction hay with
  | nil => simp [listContainsSub, List.isEmpty]
  | cons h t ih =>
    simp only [listContainsSub, Bool.or_eq_true, List.mem_cons]
    constructor
    · rintro (hp | hr)
      · left
        have : c = h := by
          simpa [List.isPrefixOf] using hp
        exact this
      · right; exact ih.mp hr
    · rintro (hc | hm)
      · left; simp [List.isPrefixOf, hc]
      · right; exact ih.mpr hm

/-- `vi` in `notification_trigger_key` is nonempty exactly when the first
dot-separated field contains a `-` (i.e., Python's `"-" in prefix`). -/
theorem strSplit_drop_one_ne_nil_iff (s : String) (c : Char) :
    (strSplit s c).drop 1 ≠ [] ↔ strContainsSub s (String.mk [c]) = true := by
  have hlen : (strSplit s c).length = (splitChar c s.data).length := by
    simp [strSplit]
  rw [strContainsSub]
  show (strSplit s c).drop 1 ≠ [] ↔ listContainsSub s.data [c] = true
  rw [listContainsSub_singleton, ← splitChar_two_le_iff c s.data]
  rw [Ne, List.drop_eq_nil_iff, not_le, hlen]
  omega

/-- **C2, counterexample.** The claim says the trigger-key derivation fails
exactly when the granule id has fewer than 4 dot-separated fields and is
otherwise total.  The granule id `"HLS.S30.T15XWH.2024237"` has exactly 4
dot-separated fields, yet the derivation fails, because the fourth field
contains no `"T"` (so `datetime.split("T")` does not unpack into
`date, _time`). -/
theorem claim2_trigger_key_counterexample :
    (strSplit "HLS.S30.T15XWH.2024237" '.').length = 4 ∧
      notification_trigger_key "HLS.S30.T15XWH.2024237" = none := by
  constructor <;> rfl

/-- **C2 (amended).** The derived trigger object key has exactly the form
`{instrument}[_VI]/data/{date}/{granule_id}/{granule_id}.json`, where
`instrument` is the second dot-separated field, `_VI` is appended exactly
when the first field contains a `-`, and `{date}` is the portion of the
fourth dot-separated field strictly before its `"T"` (for a well-formed
datetime token `YYYYDDDThhmmss` this is its first 7 characters).  The
derivation fails exactly when the granule id has fewer than 4 dot-separated
fields **or** the fourth field does not split into exactly two parts on
`"T"`; otherwise it is deterministic and total. -/
theorem claim2_trigger_key_amended (gid : String) :
    ((notification_trigger_key gid).isNone =
      ((strSplit gid '.')[3]?).all (fun dt => (strSplit dt 'T').length != 2)) ∧
    (∀ pfx instrument tile dt rest date time,
      strSplit gid '.' = pfx :: instrument :: tile :: dt :: rest →
      strSplit dt 'T' = [date, time] →
      notification_trigger_key gid =
        some (instrument ++ (if strContainsSub pfx (String.mk ['-']) then "_VI" else "")
          ++ "/data/" ++ date ++ "/" ++ gid ++ "/" ++ gid ++ ".json") ∧
      date.data = dt.data.takeWhile (fun c => c ≠ 'T')) := by
  constructor
  · rcases h4 : strSplit gid '.' with _ | ⟨p, _ | ⟨i, _ | ⟨t3, _ | ⟨dt, rest⟩⟩⟩⟩ <;>
      simp only [notification_trigger_key, h4, Option.isNone_none, Option.isNone_some,
        List.getElem?_nil, List.getElem?_cons_zero, List.getElem?_cons_succ,
        Option.all_none, Option.all_some] <;>
      try rfl
    rcases h2 : strSplit dt 'T' with _ | ⟨a, _ | ⟨b, _ | ⟨c, r⟩⟩⟩ <;> simp [h2]
  · intro pfx instrument tile dt rest date time h4 h2
    constructor
    · simp only [notification_trigger_key, h4, h2]
      have hvi : ((strSplit pfx '-').drop 1 ≠ []) ↔
          strContainsSub pfx (String.mk ['-']) = true :=
        strSplit_drop_one_ne_nil_iff pfx '-'
      by_cases hc : strContainsSub pfx (String.mk ['-']) = true
      · rw [if_pos (hvi.mpr hc), if_pos hc]
      · rw [if_neg (fun hh => hc (hvi.mp hh)), if_neg hc]
    · obtain ⟨r, hr⟩ := splitChar_head 'T' dt.data
      have : strSplit dt 'T' = String.mk (dt.data.takeWhile (fun c => c ≠ 'T')) :: r.map String.mk := by
        simp [strSplit, hr]
      rw [h2] at this
      have hdate : date = String.mk (dt.data.takeWhile (fun c => c ≠ 'T')) :=
        (List.cons.injEq _ _ _ _ ▸ this).1
      rw [hdate]

/-- **C2, witness.** Instantiation of the amended claim at the concrete
granule id `"HLS-VI.L30.T15XWH.2024237T194859.v2.0"`. -/
theorem claim2_trigger_key_witness :
    notification_trigger_key "HLS-VI.L30.T15XWH.2024237T194859.v2.0" =
      some ("L30" ++ (if strContainsSub "HLS-VI" (String.mk ['-']) then "_VI" else "")
        ++ "/data/" ++ "2024237" ++ "/" ++ "HLS-VI.L30.T15XWH.2024237T194859.v2.0"
        ++ "/" ++ "HLS-VI.L30.T15XWH.2024237T194859.v2.0" ++ ".json") ∧
    ("2024237" : String).data =
      ("2024237T194859" : String).data.takeWhile (fun c => c ≠ 'T') :=
  (claim2_trigger_key_amended "HLS-VI.L30.T15XWH.2024237T194859.v2.0").2
    "HLS-VI" "L30" "T15XWH" "2024237T194859" ["v2", "0"] "2024237" "194859"
    (by rfl) (by rfl)

/-! ## `granule_id_for_file` (`response/__init__.py`, lines 15, 116–124)

```python
GRANULE_ID_PATTERN = re.compile(r"^(?P<granule_id>.+\.v\d(?:\.\d)*)")

def granule_id_for_file(filename: str) -> str:
    if not (m := re.match(GRANULE_ID_PATTERN, filename)):
        raise ValueError(f"Unable to determine granule ID for file {filename!r}")
    return m["granule_id"]
```

Operational reading of the pattern under Python's anchored greedy
backtracking semantics: `.+` (which cannot cross a newline) backtracks from
the longest possible stem, so the stem ends at the **last** position `k ≥ 1`
on the first line of `filename` at which the literal `.v` followed by a
digit occurs; the tail `(?:\.\d)*` then greedily consumes the maximal run
of `.<digit>` pairs.  The match is the prefix of `filename` up to the end
of that run; if no such position `k` exists the match fails (Python raises
`ValueError`). -/

/-- The regex `.` matches every character except a newline. -/
def notNL (c : Char) : Bool := c ≠ '\n'

/-- The list starts with `.v<digit>` (the mandatory `\.v\d` part of the
pattern). -/
def dotVAt (l : List Char) : Bool :=
  match l with
  | a :: b :: d :: _ => a = '.' && b = 'v' && d.isDigit
  | _ => false

/-- Length of the maximal run of `.<digit>` pairs at the front of the list
(the greedy `(?:\.\d)*` part of the pattern). -/
def extTail : List Char → Nat
  | c :: d :: rest => if c = '.' ∧ d.isDigit then 2 + extTail rest else 0
  | _ => 0

/-- Candidate stem ends: positions `k ≥ 1` within the first line of `l`
at which `\.v\d` can match.  The greedy `.+` backtracks through exactly
these positions, from the largest down. -/
def candidates (l : List Char) : List Nat :=
  (List.range ((l.takeWhile notNL).length + 1)).filter
    (fun k => decide (1 ≤ k) && dotVAt (l.drop k))

/-- End position (exclusive) of the regex match of `GRANULE_ID_PATTERN`
against `l`, or `none` when the pattern does not match: the last candidate
stem end `k` on the first line wins, extended by the greedy digit-pair
run. -/
def matchEnd (l : List Char) : Option Nat :=
  match (candidates l).max? with
  | none => none
  | some k => some (k + 3 + extTail (l.drop (k + 3)))

/-- `granule_id_for_file`: the matched prefix of the filename, or `none`
(Python: `ValueError`) when `GRANULE_ID_PATTERN` does not match. -/
def granule_id_for_file (filename : String) : Option String :=
  (matchEnd filename.data).map fun e => String.mk (filename.data.take e)

example :
    granule_id_for_file "HLS.S30.T15XWH.2024237T194859.v2.0_stac.json" =
      some "HLS.S30.T15XWH.2024237T194859.v2.0" := by rfl

example : granule_id_for_file "HLS.S30.T15XWH.2024237T194859" = none := by rfl

example : granule_id_for_file "a.v1.b.v2.0.json" = some "a.v1.b.v2.0" := by rfl

example : granule_id_for_file "file.v10.tif" = some "file.v1" := by rfl

/-! ### Specification-side predicate for claim C3

Stated from the specification's words: the granule id is "the longest
prefix of `filename` ending in a version token `vN(.N)*`" (`N` a digit, as
in the pattern's `\d`), with a nonempty stem in front of the version token;
stem characters cannot include a newline, which `.+` never matches. -/

/-- `.<digit>` pairs: the characters matched by `(?:\.\d)*`. -/
def pairChain : List Char → List Char
  | [] => []
  | d :: ds => '.' :: d :: pairChain ds

/-- The string ends in a version token `.vN(.N)*` preceded by a nonempty
newline-free stem. -/
def EndsInVersionToken (g : List Char) : Prop :=
  ∃ stem d ds,
    stem ≠ [] ∧ (∀ c ∈ stem, c ≠ '\n') ∧ d.isDigit = true ∧
      (∀ c ∈ ds, c.isDigit = true) ∧
      g = stem ++ '.' :: 'v' :: d :: pairChain ds

/-! ### Facts about the match machinery -/

theorem pairChain_length (ds : List Char) : (pairChain ds).length = 2 * ds.length := by
  induction ds with
  | nil => rfl
  | cons d ds ih => simp [pairChain, ih]; ring

theorem pairChain_chars (ds : List Char) (hds : ∀ c ∈ ds, c.isDigit = true) :
    ∀ c ∈ pairChain ds, c = '.' ∨ c.isDigit = true := by
  induction ds with
  | nil => simp [pairChain]
  | cons d ds ih =>
    intro c hc
    simp only [pairChain, List.mem_cons] at hc
    rcases hc with rfl | rfl | hc
    · exact Or.inl rfl
    · exact Or.inr (hds c (List.mem_cons_self _ _))
    · exact ih (fun x hx => hds x (List.mem_cons_of_mem _ hx)) c hc

/-- Any `.<digit>` pair run at the front of `rest` is no longer than the
greedy one. -/
theorem chain_le_extTail (ds : List Char) (hds : ∀ c ∈ ds, c.isDigit = true) :
    ∀ r rest, rest = pairChain ds ++ r → 2 * ds.length ≤ extTail rest := by
  induction ds with
  | nil => intro r rest _; simp
  | cons d ds ih =>
    intro r rest hrest
    have hd : d.isDigit = true := hds d (List.mem_cons_self _ _)
    subst hrest
    show 2 * (ds.length + 1) ≤ extTail ('.' :: d :: (pairChain ds ++ r))
    have : extTail ('.' :: d :: (pairChain ds ++ r)) = 2 + extTail (pairChain ds ++ r) := by
      simp [extTail, hd]
    rw [this]
    have := ih (fun x hx => hds x (List.mem_cons_of_mem _ hx)) r (pairChain ds ++ r) rfl
    omega

/-- The greedy `(?:\.\d)*` run: `extTail` consumes exactly a `.<digit>`
pair chain. -/
theorem extTail_decompose : (rest : List Char) →
    ∃ ds r, (∀ c ∈ ds, c.isDigit = true) ∧ rest = pairChain ds ++ r ∧
      extTail rest = 2 * ds.length
  | [] => ⟨[], [], by simp [pairChain, extTail]⟩
  | [c] => ⟨[], [c], by simp [pairChain, extTail]⟩
  | c :: d :: rest' => by
    by_cases h : c = '.' ∧ d.isDigit = true
    · obtain ⟨ds', r, hds, he, hx⟩ := extTail_decompose rest'
      refine ⟨d :: ds', r, ?_, ?_, ?_⟩
      · intro x hx'
        rcases List.mem_cons.mp hx' with rfl | hm
        · exact h.2
        · exact hds x hm
      · simp [pairChain, h.1, he]
      · simp [extTail, h, hx]; ring
    · exact ⟨[], c :: d :: rest', by simp, by simp [pairChain], by simp [extTail, h]⟩

theorem extTail_le_length (rest : List Char) : extTail rest ≤ rest.length := by
  obtain ⟨ds, r, _, he, hx⟩ := extTail_decompose rest
  rw [hx, he]
  simp [pairChain_length]

/-- If the first `m` elements all satisfy `p`, then `takeWhile p` keeps at
least `m` elements. -/
theorem le_length_takeWhile (p : Char → Bool) :
    ∀ (l : List Char) (m : Nat), m ≤ l.length → (∀ c ∈ l.take m, p c = true) →
      m ≤ (l.takeWhile p).length := by
  intro l
  induction l with
  | nil => intro m hm _; simpa using hm
  | cons c t ih =>
    intro m hm h
    cases m with
    | zero => exact Nat.zero_le _
    | succ m' =>
      have hc : p c = true := h c (by simp)
      have ht : ∀ x ∈ t.take m', p x = true := fun x hx => h x (by simp [hx])
      have := ih m' (by simpa using hm) ht
      simp [List.takeWhile, hc]
      omega

/-- Elements within the `takeWhile` window satisfy the predicate. -/
theorem takeWhile_window (p : Char → Bool) (l : List Char) (k : Nat)
    (hk : k ≤ (l.takeWhile p).length) : ∀ c ∈ l.take k, p c = true := by
  intro c hc
  have hsplit : l.takeWhile p ++ l.dropWhile p = l := List.takeWhile_append_dropWhile p l
  have : l.take k = (l.takeWhile p).take k := by
    conv_lhs => rw [← hsplit]
    rw [List.take_append_of_le_length hk]
  rw [this] at hc
  exact List.mem_takeWhile_imp (List.mem_of_mem_take hc)

theorem mem_candidates {l : List Char} {k : Nat} :
    k ∈ candidates l ↔
      1 ≤ k ∧ k ≤ (l.takeWhile notNL).length ∧ dotVAt (l.drop k) = true := by
  simp only [candidates, List.mem_filter, List.mem_range, Bool.and_eq_true,
    decide_eq_true_eq, Nat.lt_succ_iff]
  tauto

theorem dotVAt_iff (l : List Char) :
    dotVAt l = true ↔ ∃ d rest, l = '.' :: 'v' :: d :: rest ∧ d.isDigit = true := by
  rcases l with _ | ⟨a, _ | ⟨b, _ | ⟨d, r⟩⟩⟩
  · simp [dotVAt]
  · simp [dotVAt]
  · simp [dotVAt]
  · constructor
    · intro h
      simp only [dotVAt, Bool.and_eq_true, decide_eq_true_eq] at h
      exact ⟨d, r, by rw [h.1.1, h.1.2], h.2⟩
    · rintro ⟨d', rest, heq, hd⟩
      simp only [List.cons.injEq] at heq
      obtain ⟨rfl, rfl, rfl, rfl⟩ := heq
      simp [dotVAt, hd]

theorem length_takeWhile_le' (p : Char → Bool) (l : List Char) :
    (l.takeWhile p).length ≤ l.length := by
  have h := List.takeWhile_append_dropWhile p l
  calc (l.takeWhile p).length
      ≤ (l.takeWhile p).length + (l.dropWhile p).length := Nat.le_add_right _ _
    _ = l.length := by rw [← List.length_append, h]

theorem take_cons3_chain (d : Char) (ds r : List Char) :
    List.take (3 + 2 * ds.length) ('.' :: 'v' :: d :: (pairChain ds ++ r)) =
      '.' :: 'v' :: d :: pairChain ds := by
  rw [show 3 + 2 * ds.length = 2 * ds.length + 1 + 1 + 1 from by ring]
  rw [List.take_succ_cons, List.take_succ_cons, List.take_succ_cons]
  rw [← pairChain_length, List.take_left]

/-- Cross-candidate bound: a `.<digit>` pair chain started at an earlier
candidate `k1` cannot reach past `k2 + 2`, because the `'v'` at `k2 + 1`
is neither `'.'` nor a digit. -/
theorem chain_stops_before (l : List Char) (k1 k2 : Nat) (h12 : k1 < k2)
    (h1 : dotVAt (l.drop k1) = true) (h2 : dotVAt (l.drop k2) = true)
    (ds r : List Char) (hds : ∀ c ∈ ds, c.isDigit = true)
    (hch : l.drop (k1 + 3) = pairChain ds ++ r) :
    k1 + 3 + 2 * ds.length ≤ k2 + 2 := by
  by_contra hcon
  push_neg at hcon
  obtain ⟨d2, rest2, hd2, _⟩ := (dotVAt_iff _).mp h2
  have hv : l[k2 + 1]? = some 'v' := by
    have h : (l.drop k2)[1]? = some 'v' := by rw [hd2]; rfl
    rwa [List.getElem?_drop] at h
  obtain ⟨d1, rest1, hd1, _⟩ := (dotVAt_iff _).mp h1
  have hne : k2 ≠ k1 + 1 := by
    intro he
    have hdot : l[k2 + 0]? = some '.' := by
      have h : (l.drop k2)[0]? = some '.' := by rw [hd2]; rfl
      rwa [List.getElem?_drop] at h
    have hvv : l[k1 + 1]? = some 'v' := by
      have h : (l.drop k1)[1]? = some 'v' := by rw [hd1]; rfl
      rwa [List.getElem?_drop] at h
    rw [he] at hdot
    simp only [Nat.add_zero] at hdot
    rw [hdot] at hvv
    simp at hvv
  have hk2 : k1 + 2 ≤ k2 := by omega
  have hjlt : k2 + 1 - (k1 + 3) < (pairChain ds).length := by
    rw [pairChain_length]; omega
  have hidx : (pairChain ds)[k2 + 1 - (k1 + 3)]? = some 'v' := by
    have h := List.getElem?_drop l (k1 + 3) (k2 + 1 - (k1 + 3))
    rw [show k1 + 3 + (k2 + 1 - (k1 + 3)) = k2 + 1 from by omega] at h
    rw [hch, hv] at h
    rwa [List.getElem?_append, if_pos hjlt] at h
  have hvmem : 'v' ∈ pairChain ds := List.getElem?_mem hidx
  rcases pairChain_chars ds hds 'v' hvmem with h | h
  · exact absurd h (by decide)
  · exact absurd h (by decide)

/-- Unpacking a candidate position: the shape of the list at `k`, and the
position bounds. -/
theorem candidate_structure {l : List Char} {k : Nat} (hk : k ∈ candidates l) :
    ∃ d rest, l.drop k = '.' :: 'v' :: d :: rest ∧ d.isDigit = true ∧
      1 ≤ k ∧ k ≤ (l.takeWhile notNL).length ∧ k + 3 ≤ l.length := by
  rw [mem_candidates] at hk
  obtain ⟨h1, h2, h3⟩ := hk
  obtain ⟨d, rest, hdrop, hd⟩ := (dotVAt_iff _).mp h3
  refine ⟨d, rest, hdrop, hd, h1, h2, ?_⟩
  have hlen : (l.drop k).length = l.length - k := List.length_drop k l
  rw [hdrop] at hlen
  have hkl : k ≤ l.length := le_trans h2 (length_takeWhile_le' notNL l)
  simp only [List.length_cons] at hlen
  omega

/-- A prefix of `l` ending in a version token yields a candidate position
(its stem length), with the corresponding shape of `l`. -/
theorem valid_prefix_candidate (l g' t : List Char) (hpre : g' ++ t = l)
    (hv : EndsInVersionToken g') :
    ∃ stem d ds, g' = stem ++ '.' :: 'v' :: d :: pairChain ds ∧
      (∀ c ∈ ds, c.isDigit = true) ∧ d.isDigit = true ∧
      stem.length ∈ candidates l ∧
      l.drop stem.length = '.' :: 'v' :: d :: (pairChain ds ++ t) ∧
      g'.length = stem.length + 3 + 2 * ds.length := by
  obtain ⟨stem, d, ds, hne, hnl, hd, hds, hg⟩ := hv
  have hl : l = stem ++ '.' :: 'v' :: d :: (pairChain ds ++ t) := by
    rw [← hpre, hg, List.append_assoc]
    rfl
  have hdrop : l.drop stem.length = '.' :: 'v' :: d :: (pairChain ds ++ t) := by
    rw [hl, List.drop_left]
  have htakek : l.take stem.length = stem := by
    rw [hl, List.take_left]
  refine ⟨stem, d, ds, hg, hds, hd, ?_, hdrop, ?_⟩
  · rw [mem_candidates]
    refine ⟨?_, ?_, ?_⟩
    · cases stem with
      | nil => exact absurd rfl hne
      | cons _ _ => simp
    · apply le_length_takeWhile notNL l stem.length
      · rw [hl]
        simp
      · intro c hc
        rw [htakek] at hc
        simpa [notNL] using hnl c hc
    · rw [hdrop]
      exact (dotVAt_iff _).mpr ⟨d, pairChain ds ++ t, rfl, hd⟩
  · rw [hg]
    simp [pairChain_length]
    ring

/-- **C3.** `granule_id_for_file` returns exactly the longest prefix of the
filename ending in a version token `vN(.N)*` (preceded by a nonempty stem,
hence independent of whatever suffix follows the token), and fails
(`MalformedFilename`, a `ValueError` in the source) exactly when the
filename has no prefix ending in a version token. -/
theorem claim3_granule_id_longest_match (f : String) :
    (∀ g, granule_id_for_file f = some g →
      (∃ t, g.data ++ t = f.data) ∧ EndsInVersionToken g.data ∧
        ∀ g', (∃ t', g' ++ t' = f.data) → EndsInVersionToken g' →
          g'.length ≤ g.data.length) ∧
    (granule_id_for_file f = none ↔
      ∀ g', (∃ t', g' ++ t' = f.data) → ¬EndsInVersionToken g') := by
  constructor
  · intro g hg
    simp only [granule_id_for_file, Option.map_eq_some'] at hg
    obtain ⟨e, he, hge⟩ := hg
    subst hge
    unfold matchEnd at he
    rcases hmax : (candidates f.data).max? with _ | k
    · rw [hmax] at he; simp at he
    · rw [hmax] at he
      simp only [Option.some.injEq] at he
      obtain ⟨hkmem, hkmax⟩ := List.max?_eq_some_iff'.mp hmax
      obtain ⟨d, rest, hdrop, hd, hk1, hknl, hk3len⟩ := candidate_structure hkmem
      have hdrop3 : f.data.drop (k + 3) = rest := by
        have h33 := List.drop_drop 3 k f.data
        rw [hdrop] at h33
        rw [show k + 3 = k + 3 from rfl, ← h33]
        rfl
      obtain ⟨ds, r, hds, hrest, hx⟩ := extTail_decompose rest
      have he' : e = k + 3 + 2 * ds.length := by
        rw [← he, hdrop3, hx]
      have hkl : k ≤ f.data.length := by omega
      have hlenk : (f.data.take k).length = k := by
        rw [List.length_take]
        exact min_eq_left hkl
      have hsplit : f.data = f.data.take k ++ '.' :: 'v' :: d :: (pairChain ds ++ r) := by
        conv_lhs => rw [← List.take_append_drop k f.data]
        rw [hdrop, hrest]
      have hrestlen : (f.data.drop k).length = f.data.length - k := List.length_drop k f.data
      have hrlen : f.data.length = k + 3 + rest.length := by
        rw [hdrop] at hrestlen
        simp only [List.length_cons] at hrestlen
        omega
      have hchainlen : 2 * ds.length ≤ rest.length := by
        rw [hrest]
        simp [pairChain_length]
      have hel : e ≤ f.data.length := by omega
      have htake : f.data.take e = f.data.take k ++ '.' :: 'v' :: d :: pairChain ds := by
        rw [he']
        conv_lhs => rw [hsplit]
        rw [show k + 3 + 2 * ds.length = (f.data.take k).length + (3 + 2 * ds.length) from by
          rw [hlenk]; ring]
        rw [List.take_append]
        rw [take_cons3_chain]
      refine ⟨⟨f.data.drop e, List.take_append_drop e f.data⟩, ?_, ?_⟩
      · refine ⟨f.data.take k, d, ds, ?_, ?_, hd, hds, htake⟩
        · intro hnil
          rw [hnil] at hlenk
          simp at hlenk
          omega
        · intro c hc
          have hwin := takeWhile_window notNL f.data k hknl c hc
          simpa [notNL] using hwin
      · intro g' ⟨t', hpre⟩ hv
        obtain ⟨stem', d', ds', hg', hds', hd', hmem', hdrop', hlen'⟩ :=
          valid_prefix_candidate f.data g' t' hpre hv
        have hlen_take_e : (f.data.take e).length = e := by
          rw [List.length_take]
          exact min_eq_left hel
        have hk'le : stem'.length ≤ k := hkmax _ hmem'
        rcases eq_or_lt_of_le hk'le with heq | hlt
        · rw [heq, hdrop] at hdrop'
          simp only [List.cons.injEq] at hdrop'
          obtain ⟨_, _, _, hrest'⟩ := hdrop'
          have hchain := chain_le_extTail ds' hds' t' rest hrest'
          rw [hlen', heq, hlen_take_e]
          omega
        · have hdv1 : dotVAt (f.data.drop stem'.length) = true := by
            rw [hdrop']
            exact (dotVAt_iff _).mpr ⟨d', pairChain ds' ++ t', rfl, hd'⟩
          have hdv2 : dotVAt (f.data.drop k) = true := by
            rw [hdrop]
            exact (dotVAt_iff _).mpr ⟨d, rest, rfl, hd⟩
          have hch' : f.data.drop (stem'.length + 3) = pairChain ds' ++ t' := by
            have h33 := List.drop_drop 3 stem'.length f.data
            rw [hdrop'] at h33
            rw [← h33]
            rfl
          have hstop := chain_stops_before f.data stem'.length k hlt hdv1 hdv2 ds' t' hds' hch'
          rw [hlen', hlen_take_e]
          omega
  · constructor
    · intro hnone g' ⟨t', hpre⟩ hv
      obtain ⟨_, _, _, _, _, _, hmem', _, _⟩ :=
        valid_prefix_candidate f.data g' t' hpre hv
      simp only [granule_id_for_file, Option.map_eq_none'] at hnone
      unfold matchEnd at hnone
      rcases hmax : (candidates f.data).max? with _ | k
      · have hemp : candidates f.data = [] := List.max?_eq_none_iff.mp hmax
        rw [hemp] at hmem'
        exact absurd hmem' (List.not_mem_nil _)
      · rw [hmax] at hnone
        simp at hnone
    · intro hno
      rcases hres : granule_id_for_file f with _ | g
      · rfl
      · exfalso
        simp only [granule_id_for_file, Option.map_eq_some'] at hres
        obtain ⟨e, he, _⟩ := hres
        unfold matchEnd at he
        rcases hmax : (candidates f.data).max? with _ | k
        · rw [hmax] at he; simp at he
        · obtain ⟨hkmem, _⟩ := List.max?_eq_some_iff'.mp hmax
          obtain ⟨d, rest, hdrop, hd, hk1, hknl, hk3len⟩ := candidate_structure hkmem
          have hkl : k ≤ f.data.length := by omega
          have hlenk : (f.data.take k).length = k := by
            rw [List.length_take]
            exact min_eq_left hkl
          refine hno (f.data.take k ++ ['.', 'v', d]) ⟨rest, ?_⟩ ?_
          · rw [List.append_assoc]
            conv_rhs => rw [← List.take_append_drop k f.data]
            rw [hdrop]
            rfl
          · refine ⟨f.data.take k, d, [], ?_, ?_, hd, by simp, by simp [pairChain]⟩
            · intro hnil
              rw [hnil] at hlenk
              simp at hlenk
              omega
            · intro c hc
              have hwin := takeWhile_window notNL f.data k hknl c hc
              simpa [notNL] using hwin

/-- **C3, witness.** The characterization applied to the concrete filename
`"HLS.S30.T15XWH.2024237T194859.v2.0_stac.json"`: the parsed granule id is
a prefix of the filename and ends in a version token. -/
theorem claim3_granule_id_witness :
    (∃ t, ("HLS.S30.T15XWH.2024237T194859.v2.0" : String).data ++ t =
        ("HLS.S30.T15XWH.2024237T194859.v2.0_stac.json" : String).data) ∧
    EndsInVersionToken ("HLS.S30.T15XWH.2024237T194859.v2.0" : String).data :=
  ⟨((claim3_granule_id_longest_match "HLS.S30.T15XWH.2024237T194859.v2.0_stac.json").1
      "HLS.S30.T15XWH.2024237T194859.v2.0" (by rfl)).1,
   ((claim3_granule_id_longest_match "HLS.S30.T15XWH.2024237T194859.v2.0_stac.json").1
      "HLS.S30.T15XWH.2024237T194859.v2.0" (by rfl)).2.1⟩

/-! ## `decode_collection_id`

`response/index.py` imports `decode_collection_id` from
`hls_lpdaac_reconciliation.response` (lines 16–21) and calls it in
`process_report` (line 171), but the module provided does not contain its
definition; only the import and the call site are available. -/

/-- Split a list at the first occurrence of `needle`, returning the parts
before and after it; `none` when `needle` does not occur. -/
def splitFirstList (needle : List Char) : List Char → Option (List Char × List Char)
  | [] => if needle = [] then some ([], []) else none
  | c :: t =>
    if needle.isPrefixOf (c :: t) then
      some ([], (c :: t).drop needle.length)
    else
      match splitFirstList needle t with
      | some (a, b) => some (c :: a, b)
      | none => none

/-- Modelled from the spec: `decode_collection_id` is imported by
`response/index.py` but its defining module is not among the provided
sources.  Per the spec (§4.1) it "splits on the first `___`" into
`(short_name, version)` and "fails with `MalformedCollectionId` if the
separator is absent". -/
def decode_collection_id (collection_id : String) : Option (String × String) :=
  (splitFirstList ['_', '_', '_'] collection_id.data).map
    fun p => (String.mk p.1, String.mk p.2)

example : decode_collection_id "HLSS30___2.0" = some ("HLSS30", "2.0") := by rfl

example : decode_collection_id "HLSS30_2.0" = none := by rfl

theorem splitFirst_none_iff (needle : List Char) :
    ∀ hay : List Char,
      splitFirstList needle hay = none ↔ listContainsSub hay needle = false := by
  intro hay
  induction hay with
  | nil =>
    by_cases h : needle = []
    · simp [splitFirstList, listContainsSub, h, List.isEmpty]
    · cases needle with
      | nil => exact absurd rfl h
      | cons n ns => simp [splitFirstList, listContainsSub, List.isEmpty]
  | cons c t ih =>
    by_cases hp : needle.isPrefixOf (c :: t) = true
    · simp [splitFirstList, hp, listContainsSub]
    · rw [Bool.not_eq_true] at hp
      simp only [splitFirstList, hp, Bool.false_eq_true, if_false, listContainsSub,
        Bool.or_eq_false_iff]
      rcases hr : splitFirstList needle t with _ | ⟨a, b⟩
      · constructor
        · intro _
          exact ⟨trivial, ih.mp hr⟩
        · intro _
          rfl
      · constructor
        · intro hcon
          simp at hcon
        · rintro ⟨_, hcont⟩
          have h2 := ih.mpr hcont
          rw [hr] at h2
          exact Option.noConfusion h2

theorem splitFirst_reconstruct (needle : List Char) :
    ∀ hay a b : List Char,
      splitFirstList needle hay = some (a, b) → a ++ needle ++ b = hay := by
  intro hay
  induction hay with
  | nil =>
    intro a b h
    by_cases hn : needle = []
    · subst hn
      simp [splitFirstList] at h
      obtain ⟨rfl, rfl⟩ := h
      rfl
    · cases needle with
      | nil => exact absurd rfl hn
      | cons n ns => simp [splitFirstList] at h
  | cons c t ih =>
    intro a b h
    by_cases hp : needle.isPrefixOf (c :: t) = true
    · simp only [splitFirstList, hp, if_true, Option.some.injEq, Prod.mk.injEq] at h
      obtain ⟨rfl, rfl⟩ := h
      obtain ⟨s, hs⟩ := List.isPrefixOf_iff_prefix.mp hp
      simp only [List.nil_append]
      conv_rhs => rw [← hs]
      rw [← hs, List.drop_left]
    · rw [Bool.not_eq_true] at hp
      simp only [splitFirstList, hp, Bool.false_eq_true, if_false] at h
      rcases hr : splitFirstList needle t with _ | ⟨a', b'⟩
      · rw [hr] at h
        cases h
      · rw [hr] at h
        simp only [Option.some.injEq, Prod.mk.injEq] at h
        obtain ⟨rfl, rfl⟩ := h
        have hrec := ih a' b' hr
        simp only [List.cons_append]
        rw [hrec]

/-- When `name` neither contains the separator nor ends in `'_'`, the first
occurrence of `___` in `name ++ ___ ++ version` is exactly at the end of
`name`. -/
theorem splitFirst_at_sep :
    ∀ name version : List Char,
      listContainsSub name ['_', '_', '_'] = false →
      name.getLast? ≠ some '_' →
      splitFirstList ['_', '_', '_'] (name ++ '_' :: '_' :: '_' :: version) =
        some (name, version) := by
  intro name
  induction name with
  | nil =>
    intro version _ _
    simp [splitFirstList, List.isPrefixOf]
  | cons c t ih =>
    intro version hnc hlast
    have hnc' : listContainsSub t ['_', '_', '_'] = false := by
      simp only [listContainsSub, Bool.or_eq_false_iff] at hnc
      exact hnc.2
    have hpre_name : (['_', '_', '_'].isPrefixOf (c :: t)) = false := by
      simp only [listContainsSub, Bool.or_eq_false_iff] at hnc
      exact hnc.1
    have hlast' : t.getLast? ≠ some '_' := by
      cases t with
      | nil => simp
      | cons c2 t2 =>
        rw [List.getLast?_cons_cons] at hlast
        exact hlast
    have hpre : (['_', '_', '_'].isPrefixOf
        (c :: (t ++ '_' :: '_' :: '_' :: version))) = false := by
      rw [Bool.eq_false_iff]
      intro htrue
      obtain ⟨s, hs⟩ := List.isPrefixOf_iff_prefix.mp htrue
      cases t with
      | nil =>
        -- name = [c]; c ≠ '_' since it is the last character
        simp only [List.nil_append, List.cons_append, List.cons.injEq] at hs
        exact hlast (by rw [← hs.1]; rfl)
      | cons c2 t2 =>
        cases t2 with
        | nil =>
          -- name = [c, c2]; c2 ≠ '_' since it is the last character
          simp only [List.nil_append, List.cons_append, List.cons.injEq] at hs
          exact hlast (by rw [← hs.2.1]; rfl)
        | cons c3 t3 =>
          -- a match here would mean name starts with `___`
          simp only [List.cons_append, List.cons.injEq] at hs
          obtain ⟨hc, hc2, hc3, _⟩ := hs
          rw [← hc, ← hc2, ← hc3] at hnc
          simp [listContainsSub, List.isPrefixOf] at hnc
    simp only [List.cons_append, splitFirstList, List.append_eq, hpre, Bool.false_eq_true,
      if_false]
    rw [ih version hnc' hlast']

/-- **C4, counterexample.** The claim asserts that for every `name` and
`version` not containing `___`, decoding `"{name}___{version}"` yields
`(name, version)`.  With `name = "A_"` and `version = "B"` (neither
contains `___`), the concatenation is `"A____B"`, whose **first** `___`
occurrence starts inside `name`'s trailing underscore, so decoding yields
`("A", "_B")`, not `("A_", "B")`. -/
theorem claim4_decode_collection_id_counterexample :
    strContainsSub "A_" "___" = false ∧ strContainsSub "B" "___" = false ∧
      decode_collection_id ("A_" ++ "___" ++ "B") = some ("A", "_B") ∧
      ("A" : String) ≠ "A_" :=
  ⟨by rfl, by rfl, by rfl, by decide⟩

/-- **C4 (amended).** `decode_collection_id` splits its input on the first
occurrence of `___`, failing exactly when the separator is absent;
re-encoding as `f"{short_name}___{version}"` always reconstructs the input;
and decoding `"{name}___{version}"` yields exactly `(name, version)`
whenever `name` neither contains `___` nor ends with `_` (underscores
elsewhere in `name` or `version` are harmless). -/
theorem claim4_decode_collection_id_amended :
    (∀ cid : String, decode_collection_id cid = none ↔
      strContainsSub cid "___" = false) ∧
    (∀ cid sn v : String, decode_collection_id cid = some (sn, v) →
      sn ++ "___" ++ v = cid) ∧
    (∀ name version : String, strContainsSub name "___" = false →
      name.data.getLast? ≠ some '_' →
      decode_collection_id (name ++ "___" ++ version) = some (name, version)) := by
  refine ⟨?_, ?_, ?_⟩
  · intro cid
    rw [decode_collection_id, Option.map_eq_none']
    exact splitFirst_none_iff ['_', '_', '_'] cid.data
  · intro cid sn v h
    rw [decode_collection_id, Option.map_eq_some'] at h
    obtain ⟨⟨a, b⟩, hsplit, heq⟩ := h
    simp only [Prod.mk.injEq] at heq
    obtain ⟨hsn, hv⟩ := heq
    have hrec := splitFirst_reconstruct ['_', '_', '_'] cid.data a b hsplit
    apply String.ext
    rw [String.data_append, String.data_append, ← hsn, ← hv]
    exact hrec
  · intro name version hnc hlast
    have hdata : (name ++ "___" ++ version).data =
        name.data ++ '_' :: '_' :: '_' :: version.data := by
      rw [String.data_append, String.data_append, List.append_assoc]
      rfl
    rw [decode_collection_id, hdata,
      splitFirst_at_sep name.data version.data hnc hlast]
    rfl

/-- **C4, witness.** The amended claim applied to the collection id
`"HLSS30___2.0"`. -/
theorem claim4_decode_collection_id_witness :
    decode_collection_id ("HLSS30" ++ "___" ++ "2.0") = some ("HLSS30", "2.0") :=
  claim4_decode_collection_id_amended.2.2 "HLSS30" "2.0" (by rfl) (by decide)

/-! ## `group_granule_ids` (`response/__init__.py`, lines 48–113)

```python
return {
    collection_id: (
        len(collection_info["report"]),
        tuple(
            sorted(
                {
                    granule_id_for_file(filename)
                    for filename in collection_info["report"]
                }
            )
        ),
    )
    for collection_report in report
    for collection_id, collection_info in collection_report.items()
}
```

The report is modelled as a sequence of sub-reports, each an (ordered)
association list from collection id to the list of filenames (the keys of
the inner `"report"` dict; the `"granuleId"` values are never read).
Python dicts are insertion-ordered with last-write-wins on duplicate keys
(a reassigned key keeps its first-insertion position), modelled by
`dictInsert`.  A `ValueError` from `granule_id_for_file` propagates,
modelled by `Option`. -/

/-- One sub-report: collection id ↦ list of filenames. -/
abbrev SubReport := List (String × List String)

/-- Python dict insertion: replace in place if the key is present
(keeping its original position), else append. -/
def dictInsert {K V : Type} [DecidableEq K] (d : List (K × V)) (k : K) (v : V) :
    List (K × V) :=
  if d.any (fun p => p.1 = k) then
    d.map (fun p => if p.1 = k then (k, v) else p)
  else d ++ [(k, v)]

/-- Python `dict.get(k, dflt)`. -/
def dictGet {K V : Type} [DecidableEq K] (d : List (K × V)) (k : K) (dflt : V) : V :=
  match d.find? (fun p => p.1 = k) with
  | some p => p.2
  | none => dflt

/-- Evaluate `f` on every element, failing if any evaluation fails
(Python: the first `ValueError` propagates). -/
def mapOption {α β : Type} (f : α → Option β) : List α → Option (List β)
  | [] => some []
  | a :: l =>
    match f a, mapOption f l with
    | some b, some bs => some (b :: bs)
    | _, _ => none

/-- Python's string ordering: lexicographic on code points, i.e. the
lexicographic order of the underlying character lists. -/
def strle (a b : String) : Prop := a.data ≤ b.data

instance : DecidableRel strle := fun a b =>
  (inferInstance : Decidable (a.data ≤ b.data))

instance : IsTotal String strle := ⟨fun a b => le_total a.data b.data⟩

instance : IsTrans String strle := ⟨fun _ _ _ h₁ h₂ => le_trans h₁ h₂⟩

instance : IsAntisymm String strle :=
  ⟨fun _ _ h₁ h₂ => String.ext (le_antisymm h₁ h₂)⟩

/-- Python's `tuple(sorted(set(l)))` for strings (lexicographic order on
code points, as in Python). -/
def sortedUnique (l : List String) : List String :=
  l.dedup.insertionSort strle

/-- The per-collection value: `(len(files), tuple(sorted({granule ids})))`. -/
def collectionEntry (files : List String) : Option (Nat × List String) :=
  (mapOption granule_id_for_file files).map fun gids =>
    (files.length, sortedUnique gids)

/-- Fold of the dict comprehension over the flattened report items. -/
def groupInsert (acc : List (String × Nat × List String)) :
    List (String × List String) → Option (List (String × Nat × List String))
  | [] => some acc
  | (cid, files) :: rest =>
    match collectionEntry files with
    | none => none
    | some e => groupInsert (dictInsert acc cid e) rest

/-- `group_granule_ids`: collection id ↦ (file count, sorted unique granule
ids), in dict iteration order. -/
def group_granule_ids (report : List SubReport) :
    Option (List (String × Nat × List String)) :=
  groupInsert [] report.flatten

example :
    group_granule_ids
      [[("HLSS30___2.0",
          ["HLS.S30.T15XWH.2124237T194859.v2.0.json",
           "HLS.S30.T15XWH.2124237T194859.v2.0_stac.json"])],
       [("HLSL30___2.0", [])]] =
      some
        [("HLSS30___2.0", 2, ["HLS.S30.T15XWH.2124237T194859.v2.0"]),
         ("HLSL30___2.0", 0, [])] := by rfl

/-! ### Facts about `mapOption`, `sortedUnique`, `dictInsert`, `groupInsert` -/

theorem mapOption_some_iff {α β : Type} (f : α → Option β) :
    ∀ (l : List α) (out : List β),
      mapOption f l = some out ↔ List.Forall₂ (fun a b => f a = some b) l out := by
  intro l
  induction l with
  | nil =>
    intro out
    constructor
    · intro h
      simp only [mapOption, Option.some.injEq] at h
      subst h
      exact List.Forall₂.nil
    · intro h
      cases h
      rfl
  | cons a l ih =>
    intro out
    constructor
    · intro h
      simp only [mapOption] at h
      rcases ha : f a with _ | b
      · rw [ha] at h; cases h
      · rw [ha] at h
        rcases hl : mapOption f l with _ | bs
        · rw [hl] at h; cases h
        · rw [hl] at h
          simp only [Option.some.injEq] at h
          subst h
          exact List.Forall₂.cons ha ((ih bs).mp hl)
    · intro h
      cases h with
      | cons hab hrest =>
        simp only [mapOption, hab, (ih _).mpr hrest]

theorem mapOption_none_iff {α β : Type} (f : α → Option β) :
    ∀ l : List α, mapOption f l = none ↔ ∃ a ∈ l, f a = none := by
  intro l
  induction l with
  | nil => simp [mapOption]
  | cons a l ih =>
    simp only [mapOption]
    rcases ha : f a with _ | b
    · simp [ha]
    · rcases hl : mapOption f l with _ | bs
      · simp only [true_iff]
        obtain ⟨x, hx, hfx⟩ := ih.mp hl
        exact ⟨x, List.mem_cons_of_mem a hx, hfx⟩
      · constructor
        · intro hcon
          cases hcon
        · rintro ⟨x, hx, hfx⟩
          rcases List.mem_cons.mp hx with rfl | hm
          · rw [ha] at hfx
            cases hfx
          · have hcon := ih.mpr ⟨x, hm, hfx⟩
            rw [hl] at hcon
            cases hcon

theorem forall₂_mem_left {α β : Type} {R : α → β → Prop} :
    ∀ {l : List α} {out : List β}, List.Forall₂ R l out →
      ∀ a ∈ l, ∃ b ∈ out, R a b := by
  intro l out h
  induction h with
  | nil => intro a ha; cases ha
  | cons hab _ ih =>
    intro x hx
    rcases List.mem_cons.mp hx with rfl | hm
    · exact ⟨_, List.mem_cons_self _ _, hab⟩
    · obtain ⟨b, hb, hR⟩ := ih x hm
      exact ⟨b, List.mem_cons_of_mem _ hb, hR⟩

theorem forall₂_mem_right {α β : Type} {R : α → β → Prop} :
    ∀ {l : List α} {out : List β}, List.Forall₂ R l out →
      ∀ b ∈ out, ∃ a ∈ l, R a b := by
  intro l out h
  induction h with
  | nil => intro b hb; cases hb
  | cons hab _ ih =>
    intro y hy
    rcases List.mem_cons.mp hy with rfl | hm
    · exact ⟨_, List.mem_cons_self _ _, hab⟩
    · obtain ⟨a, ha, hR⟩ := ih y hm
      exact ⟨a, List.mem_cons_of_mem _ ha, hR⟩

theorem mapOption_cons {α β : Type} (f : α → Option β) (a : α) (l : List α) :
    mapOption f (a :: l) =
      (f a).bind fun b => (mapOption f l).map (b :: ·) := by
  rcases ha : f a with _ | b
  · simp [mapOption, ha]
  · rcases h : mapOption f l with _ | bs <;> simp [mapOption, ha, h]

/-- `mapOption` along a permutation: failure is permutation-invariant, and
successful results are permutations of each other. -/
theorem mapOption_perm {α β : Type} (f : α → Option β) {l₁ l₂ : List α}
    (h : l₁.Perm l₂) :
    (mapOption f l₁ = none ↔ mapOption f l₂ = none) ∧
      ∀ g₁ g₂, mapOption f l₁ = some g₁ → mapOption f l₂ = some g₂ → g₁.Perm g₂ := by
  constructor
  · rw [mapOption_none_iff, mapOption_none_iff]
    constructor
    · rintro ⟨a, ha, hfa⟩; exact ⟨a, h.mem_iff.mp ha, hfa⟩
    · rintro ⟨a, ha, hfa⟩; exact ⟨a, h.mem_iff.mpr ha, hfa⟩
  · induction h with
    | nil =>
      intro g₁ g₂ h₁ h₂
      simp only [mapOption, Option.some.injEq] at h₁ h₂
      subst h₁; subst h₂
      exact List.Perm.refl _
    | cons a hp ih =>
      intro g₁ g₂ h₁ h₂
      rw [mapOption_cons, Option.bind_eq_some] at h₁ h₂
      obtain ⟨b₁, hb₁, hm₁⟩ := h₁
      obtain ⟨b₂, hb₂, hm₂⟩ := h₂
      rw [hb₁] at hb₂
      injection hb₂ with hb
      subst hb
      rw [Option.map_eq_some'] at hm₁ hm₂
      obtain ⟨bs₁, hl₁, hg₁⟩ := hm₁
      obtain ⟨bs₂, hl₂, hg₂⟩ := hm₂
      subst hg₁; subst hg₂
      exact List.Perm.cons b₁ (ih bs₁ bs₂ hl₁ hl₂)
    | swap a b l =>
      intro g₁ g₂ h₁ h₂
      rw [mapOption_cons, Option.bind_eq_some] at h₁ h₂
      obtain ⟨x₁, hx₁, hm₁⟩ := h₁
      obtain ⟨x₂, hx₂, hm₂⟩ := h₂
      rw [Option.map_eq_some'] at hm₁ hm₂
      obtain ⟨ys₁, hys₁, hg₁⟩ := hm₁
      obtain ⟨ys₂, hys₂, hg₂⟩ := hm₂
      rw [mapOption_cons, Option.bind_eq_some] at hys₁ hys₂
      obtain ⟨z₁, hz₁, hm₁'⟩ := hys₁
      obtain ⟨z₂, hz₂, hm₂'⟩ := hys₂
      rw [Option.map_eq_some'] at hm₁' hm₂'
      obtain ⟨ws₁, hws₁, hys₁'⟩ := hm₁'
      obtain ⟨ws₂, hws₂, hys₂'⟩ := hm₂'
      -- `x₁ = f b`, `z₁ = f a`; `x₂ = f a`, `z₂ = f b`
      rw [hz₂] at hx₁
      injection hx₁ with he₁
      rw [hz₁] at hx₂
      injection hx₂ with he₂
      rw [hws₁] at hws₂
      injection hws₂ with he₃
      subst he₁; subst he₂; subst he₃
      subst hg₁; subst hg₂; subst hys₁'; subst hys₂'
      exact List.Perm.swap _ _ _
    | trans h₁₂ h₂₃ ih₁ ih₂ =>
      rename_i la lb lc
      intro g₁ g₂ hg₁ hg₂
      rcases hmid : mapOption f lb with _ | gmid
      · exfalso
        obtain ⟨x, hx, hfx⟩ := (mapOption_none_iff f lb).mp hmid
        have hnone : mapOption f la = none :=
          (mapOption_none_iff f la).mpr ⟨x, h₁₂.mem_iff.mpr hx, hfx⟩
        rw [hnone] at hg₁
        cases hg₁
      · exact (ih₁ g₁ gmid hg₁ hmid).trans (ih₂ gmid g₂ hmid hg₂)

theorem sortedUnique_sorted (l : List String) :
    (sortedUnique l).Sorted strle :=
  List.sorted_insertionSort strle l.dedup

theorem sortedUnique_nodup (l : List String) : (sortedUnique l).Nodup :=
  ((List.perm_insertionSort strle l.dedup).nodup_iff).mpr (List.nodup_dedup l)

theorem mem_sortedUnique {l : List String} {g : String} :
    g ∈ sortedUnique l ↔ g ∈ l := by
  rw [sortedUnique, (List.perm_insertionSort strle l.dedup).mem_iff, List.mem_dedup]

theorem sortedUnique_perm_eq {l₁ l₂ : List String} (h : l₁.Perm l₂) :
    sortedUnique l₁ = sortedUnique l₂ := by
  apply List.eq_of_perm_of_sorted (r := strle)
  · exact ((List.perm_insertionSort strle l₁.dedup).trans h.dedup).trans
      (List.perm_insertionSort strle l₂.dedup).symm
  · exact sortedUnique_sorted l₁
  · exact sortedUnique_sorted l₂

theorem collectionEntry_perm {files₁ files₂ : List String}
    (h : files₁.Perm files₂) : collectionEntry files₁ = collectionEntry files₂ := by
  obtain ⟨hnone, hsome⟩ := mapOption_perm granule_id_for_file h
  rcases h₁ : mapOption granule_id_for_file files₁ with _ | g₁
  · rw [collectionEntry, collectionEntry, h₁, hnone.mp h₁]
    rfl
  · rcases h₂ : mapOption granule_id_for_file files₂ with _ | g₂
    · exact absurd h₁ (by rw [hnone.mpr h₂]; simp)
    · rw [collectionEntry, collectionEntry, h₁, h₂]
      simp only [Option.map_some']
      rw [sortedUnique_perm_eq (hsome g₁ g₂ h₁ h₂), h.length_eq]

theorem collectionEntry_some {files : List String} {n : Nat} {gids : List String}
    (h : collectionEntry files = some (n, gids)) :
    n = files.length ∧ gids.Sorted strle ∧ gids.Nodup ∧
      ∀ g, g ∈ gids ↔ ∃ f ∈ files, granule_id_for_file f = some g := by
  rw [collectionEntry, Option.map_eq_some'] at h
  obtain ⟨parsed, hparsed, heq⟩ := h
  simp only [Prod.mk.injEq] at heq
  obtain ⟨hn, hg⟩ := heq
  subst hn; subst hg
  refine ⟨rfl, sortedUnique_sorted parsed, sortedUnique_nodup parsed, ?_⟩
  intro g
  rw [mem_sortedUnique]
  have hfa := (mapOption_some_iff granule_id_for_file files parsed).mp hparsed
  constructor
  · intro hmem
    obtain ⟨f, hf, hR⟩ := forall₂_mem_right hfa g hmem
    exact ⟨f, hf, hR⟩
  · rintro ⟨f, hf, hfg⟩
    obtain ⟨b, hb, hR⟩ := forall₂_mem_left hfa f hf
    rw [hfg] at hR
    injection hR with hR
    rw [hR]
    exact hb

theorem dictInsert_of_not_mem {V : Type} {d : List (String × V)} {k : String}
    (h : ∀ p ∈ d, p.1 ≠ k) (v : V) : dictInsert d k v = d ++ [(k, v)] := by
  have hn : ¬(d.any fun p => decide (p.1 = k)) = true := by
    rw [List.any_eq_true]
    rintro ⟨p, hp, hpk⟩
    exact h p hp (of_decide_eq_true hpk)
  rw [dictInsert, if_neg hn]

/-- With pairwise-distinct keys that also avoid the accumulator, the dict
comprehension reduces to appending one entry per item, in order. -/
theorem groupInsert_nodup :
    ∀ (items : List (String × List String)) (acc : List (String × Nat × List String)),
      (items.map Prod.fst).Nodup →
      (∀ p ∈ items, ∀ q ∈ acc, q.1 ≠ p.1) →
      groupInsert acc items =
        (mapOption (fun p => (collectionEntry p.2).map fun e => (p.1, e)) items).map
          (acc ++ ·) := by
  intro items
  induction items with
  | nil =>
    intro acc _ _
    simp [groupInsert, mapOption]
  | cons p rest ih =>
    intro acc hnodup hdisj
    obtain ⟨cid, files⟩ := p
    rcases he : collectionEntry files with _ | e
    · simp [groupInsert, mapOption, he]
    · have hins : dictInsert acc cid e = acc ++ [(cid, e)] :=
        dictInsert_of_not_mem (fun q hq => hdisj (cid, files) (List.mem_cons_self _ _) q hq) e
      have hnodup' : (rest.map Prod.fst).Nodup := by
        simp only [List.map_cons, List.nodup_cons] at hnodup
        exact hnodup.2
      have hcid_notin : cid ∉ rest.map Prod.fst := by
        simp only [List.map_cons, List.nodup_cons] at hnodup
        exact hnodup.1
      have hdisj' : ∀ p' ∈ rest, ∀ q ∈ acc ++ [(cid, e)], q.1 ≠ p'.1 := by
        intro p' hp' q hq
        rcases List.mem_append.mp hq with hqa | hqe
        · exact hdisj p' (List.mem_cons_of_mem _ hp') q hqa
        · simp only [List.mem_singleton] at hqe
          subst hqe
          intro hcon
          apply hcid_notin
          show cid ∈ rest.map Prod.fst
          have : cid = p'.1 := hcon
          rw [this]
          exact List.mem_map_of_mem Prod.fst hp'
      have hrec := ih (acc ++ [(cid, e)]) hnodup' hdisj'
      show groupInsert acc ((cid, files) :: rest) = _
      rw [show groupInsert acc ((cid, files) :: rest) =
        groupInsert (dictInsert acc cid e) rest from by simp [groupInsert, he]]
      rw [hins, hrec, mapOption_cons]
      simp only [he, Option.map_some', Option.some_bind]
      rcases hrest : mapOption (fun p => (collectionEntry p.2).map fun e => (p.1, e)) rest
        with _ | out'
      · rw [hrest]
        rfl
      · rw [hrest]
        simp [List.append_assoc]

/-- The fold is invariant under per-collection permutation of the file
lists (same keys, same accumulator). -/
theorem groupInsert_congr :
    ∀ {items₁ items₂ : List (String × List String)},
      List.Forall₂ (fun p q => p.1 = q.1 ∧ p.2.Perm q.2) items₁ items₂ →
      ∀ acc, groupInsert acc items₁ = groupInsert acc items₂ := by
  intro items₁ items₂ h
  induction h with
  | nil => intro acc; rfl
  | cons hpq hrest ih =>
    intro acc
    rename_i p q t₁ t₂
    obtain ⟨hk, hperm⟩ := hpq
    obtain ⟨cid₁, files₁⟩ := p
    obtain ⟨cid₂, files₂⟩ := q
    simp only at hk hperm
    subst hk
    have hce : collectionEntry files₁ = collectionEntry files₂ :=
      collectionEntry_perm hperm
    rcases he : collectionEntry files₂ with _ | e
    · rw [he] at hce
      simp [groupInsert, hce, he]
    · rw [he] at hce
      simp only [groupInsert, hce, he]
      exact ih _

theorem forall₂_append {α β : Type} {R : α → β → Prop} :
    ∀ {l₁ l₁' : List α} {l₂ l₂' : List β},
      List.Forall₂ R l₁ l₂ → List.Forall₂ R l₁' l₂' →
      List.Forall₂ R (l₁ ++ l₁') (l₂ ++ l₂') := by
  intro l₁ l₁' l₂ l₂' h h'
  induction h with
  | nil => exact h'
  | cons hab _ ih => exact List.Forall₂.cons hab ih

/-- `Forall₂` is preserved by `flatten` (pointwise on sub-lists). -/
theorem forall₂_flatten {α β : Type} {R : α → β → Prop} :
    ∀ {r₁ : List (List α)} {r₂ : List (List β)},
      List.Forall₂ (List.Forall₂ R) r₁ r₂ →
      List.Forall₂ R r₁.flatten r₂.flatten := by
  intro r₁ r₂ h
  induction h with
  | nil => exact List.Forall₂.nil
  | cons hsub _ ih =>
    simp only [List.flatten_cons]
    exact forall₂_append hsub ih

/-- **C5.** `group_granule_ids` maps each collection id of the report
(with the unique-collection-id precondition the report format guarantees)
to the pair (total filename count, unique granule ids sorted ascending in
Python's string order); a zero-file sub-report maps to `(0, [])` and still
appears; the collection ordering of the input is preserved; and the result
is invariant under permuting the files within each collection.  The
function is pure by construction (no I/O, no mutation). -/
theorem claim5_group_granule_ids (report : List SubReport)
    (out : List (String × Nat × List String))
    (hnodup : ((report.flatten).map Prod.fst).Nodup)
    (hsome : group_granule_ids report = some out) :
    (out.map Prod.fst = (report.flatten).map Prod.fst) ∧
    (∀ cid files, (cid, files) ∈ report.flatten →
      ∃ n gids, (cid, (n, gids)) ∈ out ∧ n = files.length ∧
        gids.Sorted strle ∧ gids.Nodup ∧
        (∀ g, g ∈ gids ↔ ∃ f ∈ files, granule_id_for_file f = some g)) ∧
    (∀ cid, (cid, ([] : List String)) ∈ report.flatten →
      (cid, ((0 : Nat), ([] : List String))) ∈ out) ∧
    (∀ report₂ : List SubReport,
      List.Forall₂ (List.Forall₂ (fun p q => p.1 = q.1 ∧ p.2.Perm q.2)) report report₂ →
      group_granule_ids report₂ = some out) := by
  have hred := groupInsert_nodup report.flatten [] hnodup (by intro p _ q hq; cases hq)
  rw [group_granule_ids, hred, Option.map_eq_some'] at hsome
  obtain ⟨out', hmap, hout⟩ := hsome
  simp only [List.nil_append] at hout
  subst hout
  have hfa := (mapOption_some_iff
    (fun p => (collectionEntry p.2).map fun e => (p.1, e)) report.flatten out').mp hmap
  refine ⟨?_, ?_, ?_, ?_⟩
  · clear hmap hnodup hred
    revert hfa
    generalize report.flatten = flat
    intro hfa
    induction hfa with
    | nil => rfl
    | cons hab _ ih =>
      rw [Option.map_eq_some'] at hab
      obtain ⟨e, _, hb⟩ := hab
      subst hb
      simp only [List.map_cons, ih]
  · intro cid files hmem
    obtain ⟨b, hb, hR⟩ := forall₂_mem_left hfa (cid, files) hmem
    rw [Option.map_eq_some'] at hR
    obtain ⟨e, hce, hbe⟩ := hR
    subst hbe
    obtain ⟨en, egids⟩ := e
    obtain ⟨hn, hsorted, hnodup_g, hmem_iff⟩ := collectionEntry_some hce
    exact ⟨en, egids, hb, hn, hsorted, hnodup_g, hmem_iff⟩
  · intro cid hmem
    obtain ⟨b, hb, hR⟩ := forall₂_mem_left hfa (cid, ([] : List String)) hmem
    rw [Option.map_eq_some'] at hR
    obtain ⟨e, hce, hbe⟩ := hR
    subst hbe
    have he : ((0 : Nat), ([] : List String)) = e := Option.some.inj hce
    rw [← he] at hb
    exact hb
  · intro report₂ hforall
    show groupInsert [] report₂.flatten = some out'
    rw [← groupInsert_congr (forall₂_flatten hforall) []]
    show group_granule_ids report = some out'
    rw [group_granule_ids, hred, hmap]
    rfl

/-- **C5, witness.** The characterization applied to a concrete two-collection
report (one sub-report with two files of one granule, one empty
sub-report): the output preserves the collection ordering. -/
theorem claim5_group_granule_ids_witness :
    ([("HLSS30___2.0", ((2 : Nat), ["HLS.S30.T15XWH.2124237T194859.v2.0"])),
      ("HLSL30___2.0", ((0 : Nat), ([] : List String)))].map Prod.fst =
      (([[("HLSS30___2.0",
            ["HLS.S30.T15XWH.2124237T194859.v2.0.json",
             "HLS.S30.T15XWH.2124237T194859.v2.0_stac.json"])],
          [("HLSL30___2.0", [])]] : List SubReport).flatten).map Prod.fst) :=
  (claim5_group_granule_ids
    [[("HLSS30___2.0",
        ["HLS.S30.T15XWH.2124237T194859.v2.0.json",
         "HLS.S30.T15XWH.2124237T194859.v2.0_stac.json"])],
      [("HLSL30___2.0", [])]]
    [("HLSS30___2.0", ((2 : Nat), ["HLS.S30.T15XWH.2124237T194859.v2.0"])),
     ("HLSL30___2.0", ((0 : Nat), ([] : List String)))]
    (by decide) (by rfl)).1

/-! ## `extract_report_location` (`response/__init__.py`, lines 18–45)

```python
if match := re.search(
    r"Report\s+available\s+at\s+(?P<loc>.+)[.]", message, re.MULTILINE
):
    location = match["loc"]
    bucket, key = location.split("/", 1)
    return bucket, key

raise ValueError(f"Cannot determine report location from message: '{message}'")
```

Operational reading of the regex under Python `re` semantics: `re.search`
finds the leftmost start position where the whole pattern matches.  At a
given position the literal `Report` must match, then `\s+` (which also
matches newlines) greedily consumes a maximal whitespace run (backtracking
before a following literal is vacuous, since the literals start with
non-whitespace characters), then `available`, `\s+`, `at`.  The final
`\s+(?P<loc>.+)[.]` does backtrack: `\s+` tries the maximal whitespace run
first and shrinks on failure; for each choice, `.+` (which cannot cross a
newline) is greedy, so `loc` runs to just before the **last** `'.'` on its
line.  `re.MULTILINE` only affects `^`/`$` and is vacuous here.

`location.split("/", 1)` then raises `ValueError` ("not enough values to
unpack") when `loc` contains no `/` — a distinct error from the report
location not being found. -/

/-- Python's `\s` (ASCII whitespace). -/
def pySpace (c : Char) : Bool :=
  c = ' ' || c = '\t' || c = '\n' || c = '\r' || c = '\x0b' || c = '\x0c'

/-- The greedy `(?P<loc>.+)[.]` at the start of `rest`: take the current
line, and cut just before its last `'.'` at index ≥ 1. -/
def locFrom (rest : List Char) : Option (List Char) :=
  let line := rest.takeWhile notNL
  match ((List.range line.length).filter
      (fun p => decide (1 ≤ p) && decide (getElem? line p = some '.'))).max? with
  | none => none
  | some p => some (line.take p)

/-- Backtracking over the length of the final `\s+`: try `w, w-1, …, 1`. -/
def wsBacktrack (rest : List Char) : Nat → Option (List Char)
  | 0 => none
  | w + 1 =>
    match locFrom (rest.drop (w + 1)) with
    | some loc => some loc
    | none => wsBacktrack rest w

/-- `\s+(?P<loc>.+)[.]`: maximal whitespace run first, then backtrack. -/
def afterAt (rest : List Char) : Option (List Char) :=
  wsBacktrack rest (rest.takeWhile pySpace).length

/-- Attempt the whole pattern at the start of `l`. -/
def matchKeywordAt (l : List Char) : Option (List Char) :=
  if "Report".data.isPrefixOf l then
    let r1 := l.drop 6
    let w1 := (r1.takeWhile pySpace).length
    if w1 = 0 then none
    else
      let r2 := r1.drop w1
      if "available".data.isPrefixOf r2 then
        let r3 := r2.drop 9
        let w2 := (r3.takeWhile pySpace).length
        if w2 = 0 then none
        else
          let r4 := r3.drop w2
          if "at".data.isPrefixOf r4 then
            afterAt (r4.drop 2)
          else none
      else none
  else none

/-- `re.search`: leftmost matching start position. -/
def searchReportLoc : List Char → Option (List Char)
  | [] => none
  | c :: t =>
    match matchKeywordAt (c :: t) with
    | some loc => some loc
    | none => searchReportLoc t

/-- The two distinct failure modes of `extract_report_location`. -/
inductive ExtractErr : Type where
  | reportLocationNotFound
  | unpackError
deriving DecidableEq, Repr

/-- `extract_report_location`: regex search, then `split("/", 1)` into
`(bucket, key)`. -/
def extract_report_location (message : String) :
    Except ExtractErr (String × String) :=
  match searchReportLoc message.data with
  | none => Except.error ExtractErr.reportLocationNotFound
  | some loc =>
    match splitFirstList ['/'] loc with
    | none => Except.error ExtractErr.unpackError
    | some (b, k) => Except.ok (String.mk b, String.mk k)

example :
    extract_report_location "Report available at my-bucket/reports/r.json." =
      Except.ok ("my-bucket", "reports/r.json") := by rfl

example :
    extract_report_location "Nothing to see here." =
      Except.error ExtractErr.reportLocationNotFound := by rfl

-- `.+` is greedy: `loc` runs to just before the *last* `'.'` on its line.
example :
    extract_report_location
      "Dear user,\nReport  available\nat my-bucket/x.rpt. Thanks." =
      Except.ok ("my-bucket", "x.rpt. Thanks") := by rfl

/-! ## The response handler (`response/index.py`)

The S3/CMR collaborators are modelled as an oracle environment plus an
explicit S3 state; every external call is recorded in an effect trace so
that "performs no storage or catalog operation" is a provable statement.
Python exceptions (`MalformedGranuleId` from `notification_trigger_key`,
`MalformedCollectionId` from `decode_collection_id`,
`ValueError` from `extract_report_location`) surface as `none`. -/

/-- `class Status(StrEnum): SKIPPED / TRIGGERED / MISSING`. -/
inductive Status : Type where
  | skipped
  | triggered
  | missing
deriving DecidableEq, Repr

/-- An S3 object: its content bytes and its (opaque) metadata revision. -/
structure S3Object : Type where
  content : String
  meta : Nat
deriving DecidableEq, Repr

/-- The S3 state: (bucket, key) ↦ object. -/
def S3State : Type := String × String → Option S3Object

/-- External calls made by the handler, in order. -/
inductive Op : Type where
  | cmrQuery (short_name version granule_id : String)
  | headObject (bucket key : String)
  | copyObject (bucket key : String)
  | getReport (bucket key : String)
deriving DecidableEq, Repr

/-- The environment of oracles: the CMR search result and the parsed JSON
report behind each S3 location. -/
structure Env : Type where
  cmr : String → String → String → Bool
  report : String → String → List SubReport

/-- `copy_object(..., MetadataDirective="REPLACE")` on an existing object:
the content is preserved, only the metadata revision changes. -/
def touchObject (st : S3State) (bucket key : String) : S3State :=
  fun bk =>
    if bk = (bucket, key) then
      (st bk).map fun o => { content := o.content, meta := o.meta + 1 }
    else st bk

/-- `process_granule` (lines 228–274): CMR check first, then trigger-file
check and touch.  Returns the status, the new S3 state and the trace of
external calls; `none` models the `ValueError` from
`notification_trigger_key`. -/
def process_granule (env : Env) (st : S3State)
    (short_name version granule_id data_bucket_name : String) :
    Option (Status × S3State × List Op) :=
  if env.cmr short_name version granule_id then
    some (Status.skipped, st, [Op.cmrQuery short_name version granule_id])
  else
    match notification_trigger_key granule_id with
    | none => none
    | some key =>
      if (st (data_bucket_name, key)).isSome then
        some (Status.triggered, touchObject st data_bucket_name key,
          [Op.cmrQuery short_name version granule_id,
           Op.headObject data_bucket_name key,
           Op.copyObject data_bucket_name key])
      else
        some (Status.missing, st,
          [Op.cmrQuery short_name version granule_id,
           Op.headObject data_bucket_name key])

/-- `{**acc, status: [*acc.get(status, []), granule_id]}`. -/
def statusInsert (acc : List (Status × List String)) (s : Status)
    (granule_id : String) : List (Status × List String) :=
  dictInsert acc s (dictGet acc s [] ++ [granule_id])

/-- `process_collection` (lines 182–225): fold the per-granule decision
over the granule ids, grouping them by resulting status. -/
def process_collection (env : Env) (st : S3State)
    (short_name version : String) (granule_ids : List String)
    (data_bucket_name : String) :
    Option (List (Status × List String) × S3State × List Op) :=
  granule_ids.foldl
    (fun acc gid =>
      acc.bind fun (d, st, ops) =>
        (process_granule env st short_name version gid data_bucket_name).map
          fun (s, st', ops') => (statusInsert d s gid, st', ops ++ ops'))
    (some ([], st, []))

/-- `process_report` (lines 136–179): group the report, decode each
collection id, process each collection. -/
def process_report (env : Env) (st : S3State) (report : List SubReport)
    (data_bucket_name : String) :
    Option (List (String × List (Status × List String)) × S3State × List Op) :=
  (group_granule_ids report).bind fun grouped =>
    grouped.foldl
      (fun acc entry =>
        acc.bind fun (d, st, ops) =>
          (decode_collection_id entry.1).bind fun (sn, v) =>
            (process_collection env st sn v entry.2.2 data_bucket_name).map
              fun (res, st', ops') => (dictInsert d entry.1 res, st', ops ++ ops'))
      (some ([], st, []))

/-- The truthiness test `if subject and "Ok" in subject`. -/
def subjectOk (subject : Option String) : Bool :=
  match subject with
  | some s => (s ≠ "") && strContainsSub s "Ok"
  | none => false

/-- The response `handler` (lines 34–100): skip everything when the
subject contains `"Ok"`; otherwise extract the report location, read the
report, pick the data bucket by the `"historical"` marker in the report
key, and process the report. -/
def handler (env : Env) (st : S3State) (subject : Option String)
    (message : String) (hls_forward_bucket hls_historical_bucket : String) :
    Option (List (String × List (Status × List String)) × S3State × List Op) :=
  if subjectOk subject then
    some ([], st, [])
  else
    match extract_report_location message with
    | Except.error _ => none
    | Except.ok (report_bucket, report_key) =>
      let report := env.report report_bucket report_key
      let data_bucket :=
        if strContainsSub report_key "historical" then hls_historical_bucket
        else hls_forward_bucket
      (process_report env st report data_bucket).map
        fun (d, st', ops) => (d, st', Op.getReport report_bucket report_key :: ops)

/-- **C1.** Per granule, the outcome is decided in this fixed order: if the
CMR reports the granule present, the result is SKIPPED with no storage
operation (the trace holds only the CMR query, the state is unchanged) —
this holds even before the trigger key is derived; otherwise, if the
trigger object exists in the data bucket, it is touched in place (content
preserved, metadata revision changed, no other object affected) and the
result is TRIGGERED; otherwise the result is MISSING with the state
unchanged.  Under the derivability of the trigger key, exactly one of the
three outcomes is returned. -/
theorem claim1_process_granule (env : Env) (st : S3State)
    (sn v gid bkt : String) :
    (env.cmr sn v gid = true →
      process_granule env st sn v gid bkt =
        some (Status.skipped, st, [Op.cmrQuery sn v gid])) ∧
    (∀ key, env.cmr sn v gid = false → notification_trigger_key gid = some key →
      ((st (bkt, key)).isSome = true →
        process_granule env st sn v gid bkt =
          some (Status.triggered, touchObject st bkt key,
            [Op.cmrQuery sn v gid, Op.headObject bkt key,
             Op.copyObject bkt key]) ∧
        (∀ o, st (bkt, key) = some o →
          touchObject st bkt key (bkt, key) =
            some { content := o.content, meta := o.meta + 1 }) ∧
        (∀ bk, bk ≠ (bkt, key) → touchObject st bkt key bk = st bk)) ∧
      ((st (bkt, key)).isSome = false →
        process_granule env st sn v gid bkt =
          some (Status.missing, st,
            [Op.cmrQuery sn v gid, Op.headObject bkt key])) ∧
      (∃ s st' tr, process_granule env st sn v gid bkt = some (s, st', tr))) := by
  constructor
  · intro hcmr
    simp [process_granule, hcmr]
  · intro key hcmr hkey
    refine ⟨?_, ?_, ?_⟩
    · intro hexists
      refine ⟨by simp [process_granule, hcmr, hkey, hexists], ?_, ?_⟩
      · intro o ho
        simp [touchObject, ho]
      · intro bk hbk
        simp [touchObject, hbk]
    · intro habsent
      simp [process_granule, hcmr, hkey, habsent]
    · rcases hexists : (st (bkt, key)).isSome with _ | _
      · exact ⟨Status.missing, st, [Op.cmrQuery sn v gid, Op.headObject bkt key],
          by simp [process_granule, hcmr, hkey, hexists]⟩
      · exact ⟨Status.triggered, touchObject st bkt key,
          [Op.cmrQuery sn v gid, Op.headObject bkt key, Op.copyObject bkt key],
          by simp [process_granule, hcmr, hkey, hexists]⟩

/-- **C1, witness.** A granule absent from CMR whose trigger object exists:
the object is touched in place (revision bumped, content preserved) and the
result is TRIGGERED. -/
theorem claim1_process_granule_witness :
    process_granule
      ⟨fun _ _ _ => false, fun _ _ => []⟩
      (fun bk =>
        if bk = ("hls-bucket",
            "S30/data/2124237/HLS.S30.T15XWH.2124237T194859.v2.0/HLS.S30.T15XWH.2124237T194859.v2.0.json")
        then some { content := "trigger", meta := 0 } else none)
      "HLSS30" "2.0" "HLS.S30.T15XWH.2124237T194859.v2.0" "hls-bucket" =
      some (Status.triggered,
        touchObject
          (fun bk =>
            if bk = ("hls-bucket",
                "S30/data/2124237/HLS.S30.T15XWH.2124237T194859.v2.0/HLS.S30.T15XWH.2124237T194859.v2.0.json")
            then some { content := "trigger", meta := 0 } else none)
          "hls-bucket"
          "S30/data/2124237/HLS.S30.T15XWH.2124237T194859.v2.0/HLS.S30.T15XWH.2124237T194859.v2.0.json",
        [Op.cmrQuery "HLSS30" "2.0" "HLS.S30.T15XWH.2124237T194859.v2.0",
         Op.headObject "hls-bucket"
           "S30/data/2124237/HLS.S30.T15XWH.2124237T194859.v2.0/HLS.S30.T15XWH.2124237T194859.v2.0.json",
         Op.copyObject "hls-bucket"
           "S30/data/2124237/HLS.S30.T15XWH.2124237T194859.v2.0/HLS.S30.T15XWH.2124237T194859.v2.0.json"]) ∧
    touchObject
      (fun bk =>
        if bk = ("hls-bucket",
            "S30/data/2124237/HLS.S30.T15XWH.2124237T194859.v2.0/HLS.S30.T15XWH.2124237T194859.v2.0.json")
        then some { content := "trigger", meta := 0 } else none)
      "hls-bucket"
      "S30/data/2124237/HLS.S30.T15XWH.2124237T194859.v2.0/HLS.S30.T15XWH.2124237T194859.v2.0.json"
      ("hls-bucket",
        "S30/data/2124237/HLS.S30.T15XWH.2124237T194859.v2.0/HLS.S30.T15XWH.2124237T194859.v2.0.json") =
      some { content := "trigger", meta := 1 } := by
  have h :=
    ((claim1_process_granule
      ⟨fun _ _ _ => false, fun _ _ => []⟩
      (fun bk =>
        if bk = ("hls-bucket",
            "S30/data/2124237/HLS.S30.T15XWH.2124237T194859.v2.0/HLS.S30.T15XWH.2124237T194859.v2.0.json")
        then some { content := "trigger", meta := 0 } else none)
      "HLSS30" "2.0" "HLS.S30.T15XWH.2124237T194859.v2.0" "hls-bucket").2
      "S30/data/2124237/HLS.S30.T15XWH.2124237T194859.v2.0/HLS.S30.T15XWH.2124237T194859.v2.0.json"
      (by rfl) (by rfl)).1 (by rfl)
  exact ⟨h.1, h.2.1 { content := "trigger", meta := 0 } (by rfl)⟩

/-- **C6.** If the notification subject contains `"Ok"`, the handler skips
all processing: it returns the empty mapping, leaves the S3 state
untouched, and performs no external call at all (no report read, no
storage or catalog operation), regardless of the message content. -/
theorem claim6_handler_ok (env : Env) (st : S3State) (subject : Option String)
    (message : String) (fb hb : String) (s : String)
    (hsub : subject = some s) (hok : strContainsSub s "Ok" = true) :
    handler env st subject message fb hb = some ([], st, []) := by
  have hne : s ≠ "" := by
    intro h
    rw [h] at hok
    exact absurd hok (by decide)
  have hcond : subjectOk subject = true := by
    rw [hsub]
    simp [subjectOk, hne, hok]
  rw [handler, if_pos hcond]

/-- **C6, witness.** The handler applied to a concrete "Ok" notification:
the result is the empty mapping, with no external calls, whatever the
message says. -/
theorem claim6_handler_ok_witness :
    handler ⟨fun _ _ _ => false, fun _ _ => []⟩ (fun _ => none)
      (some "[External] Rec-Report HLS lp-prod HLS_reconcile_2024240_2.0.rpt Ok")
      "Report available at my-bucket/reports/r.json." "fwd-bucket" "hist-bucket" =
      some ([], fun _ => none, []) :=
  claim6_handler_ok ⟨fun _ _ _ => false, fun _ _ => []⟩ (fun _ => none)
    (some "[External] Rec-Report HLS lp-prod HLS_reconcile_2024240_2.0.rpt Ok")
    "Report available at my-bucket/reports/r.json." "fwd-bucket" "hist-bucket"
    "[External] Rec-Report HLS lp-prod HLS_reconcile_2024240_2.0.rpt Ok"
    rfl (by rfl)

/-! ## Report generation (`generate_report/index.py`)

### `_wait_query_execution` (lines 129–156)

```python
attempt = 0
while attempt < max_attempts:
    response = self.athena.get_query_execution(QueryExecutionId=query_id)
    state = response["QueryExecution"]["Status"]["State"]
    if state == "SUCCEEDED":
        return response["QueryExecution"]["ResultConfiguration"]["OutputLocation"]
    elif state in ("CANCELLED", "FAILED"):
        raise RuntimeError(f"Query is unsuccessful ({state}). Aborting")
    else:
        time.sleep(delay_seconds)
    attempt += 1
raise TimeoutError(f"Timed out executing query_id={query_id}")
```

The Athena responses are an oracle indexed by the poll attempt; the
`time.sleep(delay_seconds)` between attempts is a fixed real-time delay and
is not modelled.  The embedding also counts the number of status polls
performed. -/

/-- Athena oracle: the `State` string and `OutputLocation` of the response
to the k-th `get_query_execution` call. -/
structure QueryPollEnv : Type where
  state : Nat → String
  outputLocation : Nat → String

/-- `RuntimeError` (with the service-provided state as the reason) or
`TimeoutError`. -/
inductive WaitErr : Type where
  | queryError (state : String)
  | queryTimeout
deriving DecidableEq, Repr

/-- The polling loop from a given attempt with the remaining number of
attempts as fuel; also returns how many polls were performed. -/
def waitFrom (env : QueryPollEnv) : Nat → Nat → Except WaitErr String × Nat
  | _, 0 => (Except.error WaitErr.queryTimeout, 0)
  | attempt, fuel + 1 =>
    let s := env.state attempt
    if s = "SUCCEEDED" then
      (Except.ok (env.outputLocation attempt), 1)
    else if s = "CANCELLED" ∨ s = "FAILED" then
      (Except.error (WaitErr.queryError s), 1)
    else
      let r := waitFrom env (attempt + 1) fuel
      (r.1, r.2 + 1)

/-- `_wait_query_execution` (`max_attempts` defaults to 50 in the source). -/
def wait_query_execution (env : QueryPollEnv) (max_attempts : Nat) :
    Except WaitErr String × Nat :=
  waitFrom env 0 max_attempts

/-- A state on which the loop keeps polling. -/
def NonTerminal (s : String) : Prop :=
  s ≠ "SUCCEEDED" ∧ s ≠ "CANCELLED" ∧ s ≠ "FAILED"

/-! ### `write_results_to_s3` (lines 67–96) and the report path

```python
bucket, key = destination.replace("s3://", "").split("/", 1)
...
    i = 0
    for i, row in enumerate(self._fetch_results()):
        ...
        writer.writerow(row)
if i > 0:
    self.s3.upload_file(str(tmp_dest), bucket, key)
else:
    print("No rows returned. Nothing to report.")
```

A row is the list of the six column values; the `DictWriter` is created
without writing a header.  `split("/", 1)` raises `ValueError` when the
stripped destination has no `/` (modelled as `none`). -/

/-- One CSV data row (six ordered column values). -/
abbrev Row := List String

/-- `str.replace("s3://", "")`: remove every (non-overlapping, leftmost
first) occurrence.  Fuel-indexed to keep the recursion structural; the
initial fuel `l.length` dominates the number of steps. -/
def stripS3SchemeAux : Nat → List Char → List Char
  | 0, l => l
  | _ + 1, [] => []
  | fuel + 1, c :: t =>
    if "s3://".data.isPrefixOf (c :: t) then
      stripS3SchemeAux fuel ((c :: t).drop 5)
    else c :: stripS3SchemeAux fuel t

def stripS3Scheme (l : List Char) : List Char :=
  stripS3SchemeAux l.length l

/-- Python's `enumerate`, from a starting index. -/
def enumerateFrom {α : Type} (n : Nat) : List α → List (Nat × α)
  | [] => []
  | a :: t => (n, a) :: enumerateFrom (n + 1) t

/-- Outcome of `write_results_to_s3`: the rows written to the temporary
CSV (no header), the final value of the loop variable `i`, and the object
uploaded, if any. -/
structure WriteResult : Type where
  tmpRows : List Row
  finalI : Nat
  uploaded : Option (String × String × List Row)
deriving DecidableEq, Repr

/-- `write_results_to_s3`. -/
def write_results_to_s3 (rows : List Row) (destination : String) :
    Option WriteResult :=
  match splitFirstList ['/'] (stripS3Scheme destination.data) with
  | none => none
  | some (b, k) =>
    -- `i = 0` and then `for i, row in enumerate(...)`: after the loop `i`
    -- is the index of the last row, or 0 when there were no rows.
    let i := (enumerateFrom 0 rows).foldl (fun _ p => p.1) 0
    some
      { tmpRows := rows
        finalI := i
        uploaded :=
          if i > 0 then some (String.mk b, String.mk k, rows) else none }

/-- The report output location built by the generate-report `handler`
(lines 306–309): `{prefix}/{YYYYDDD}/HLS_reconcile_{YYYYDDD}_{version}.csv`,
with `yj` standing for the `%Y%j`-formatted report start date. -/
def report_output_location (report_output_pfx yj product_version : String) :
    String :=
  report_output_pfx ++ "/" ++ yj ++ "/HLS_reconcile_" ++ yj ++ "_"
    ++ product_version ++ ".csv"

example :
    report_output_location "s3://reports" "2024240" "2.0" =
      "s3://reports/2024240/HLS_reconcile_2024240_2.0.csv" := by rfl

example :
    write_results_to_s3
      [["HLSS30", "2.0", "f1.tif", "100", "t", "NA"],
       ["HLSL30", "2.0", "f2.tif", "200", "t", "NA"]]
      "s3://reports/2024240/HLS_reconcile_2024240_2.0.csv" =
      some
        { tmpRows :=
            [["HLSS30", "2.0", "f1.tif", "100", "t", "NA"],
             ["HLSL30", "2.0", "f2.tif", "200", "t", "NA"]]
          finalI := 1
          uploaded :=
            some ("reports", "2024240/HLS_reconcile_2024240_2.0.csv",
              [["HLSS30", "2.0", "f1.tif", "100", "t", "NA"],
               ["HLSL30", "2.0", "f2.tif", "200", "t", "NA"]]) } := by rfl

/-! ### Facts about the poll loop and the CSV writer -/

theorem waitFrom_poll_bound (env : QueryPollEnv) :
    ∀ (f a : Nat), (waitFrom env a f).2 ≤ f := by
  intro f
  induction f with
  | zero => intro a; simp [waitFrom]
  | succ f ih =>
    intro a
    simp only [waitFrom]
    by_cases h1 : env.state a = "SUCCEEDED"
    · simp [h1]
    · by_cases h2 : env.state a = "CANCELLED" ∨ env.state a = "FAILED"
      · simp [h1, h2]
      · simp only [h1, h2, if_false]
        have := ih (a + 1)
        omega

theorem waitFrom_first_terminal (env : QueryPollEnv) :
    ∀ (k a f : Nat), k < f →
      (∀ j, j < k → NonTerminal (env.state (a + j))) →
      (env.state (a + k) = "SUCCEEDED" →
        waitFrom env a f = (Except.ok (env.outputLocation (a + k)), k + 1)) ∧
      ((env.state (a + k) = "CANCELLED" ∨ env.state (a + k) = "FAILED") →
        waitFrom env a f =
          (Except.error (WaitErr.queryError (env.state (a + k))), k + 1)) := by
  intro k
  induction k with
  | zero =>
    intro a f hf _
    cases f with
    | zero => omega
    | succ f' =>
      constructor
      · intro hs
        simp only [Nat.add_zero] at hs
        simp [waitFrom, hs]
      · intro hs
        simp only [Nat.add_zero] at hs
        have hns : ¬env.state a = "SUCCEEDED" := by
          rcases hs with hs | hs <;> rw [hs] <;> decide
        simp [waitFrom, hns, hs]
  | succ k ih =>
    intro a f hf hnt
    cases f with
    | zero => omega
    | succ f' =>
      have h0 := hnt 0 (Nat.succ_pos k)
      simp only [Nat.add_zero] at h0
      obtain ⟨hn1, hn2, hn3⟩ := h0
      have hnt' : ∀ j, j < k → NonTerminal (env.state (a + 1 + j)) := by
        intro j hj
        have := hnt (j + 1) (by omega)
        rwa [show a + (j + 1) = a + 1 + j from by omega] at this
      have ih' := ih (a + 1) f' (by omega) hnt'
      rw [show a + 1 + k = a + (k + 1) from by omega] at ih'
      have hno : ¬(env.state a = "CANCELLED" ∨ env.state a = "FAILED") := by
        rintro (h | h)
        · exact hn2 h
        · exact hn3 h
      constructor
      · intro hs
        have := ih'.1 hs
        simp only [waitFrom, hn1, hno, if_false, this]
      · intro hs
        have := ih'.2 hs
        simp only [waitFrom, hn1, hno, if_false, this]

theorem waitFrom_timeout (env : QueryPollEnv) :
    ∀ (f a : Nat), (∀ j, j < f → NonTerminal (env.state (a + j))) →
      waitFrom env a f = (Except.error WaitErr.queryTimeout, f) := by
  intro f
  induction f with
  | zero => intro a _; rfl
  | succ f ih =>
    intro a hnt
    have h0 := hnt 0 (Nat.succ_pos f)
    simp only [Nat.add_zero] at h0
    obtain ⟨hn1, hn2, hn3⟩ := h0
    have hno : ¬(env.state a = "CANCELLED" ∨ env.state a = "FAILED") := by
      rintro (h | h)
      · exact hn2 h
      · exact hn3 h
    have hnt' : ∀ j, j < f → NonTerminal (env.state (a + 1 + j)) := by
      intro j hj
      have := hnt (j + 1) (by omega)
      rwa [show a + (j + 1) = a + 1 + j from by omega] at this
    simp only [waitFrom, hn1, hno, if_false, ih (a + 1) hnt']

/-- **C8.** The query-poll loop performs at most `max_attempts` status
polls; if the first terminal state within the ceiling is `SUCCEEDED` at
attempt `k`, polling stops there (after `k + 1` polls) with the query
output location; if it is `FAILED` or `CANCELLED`, the run fails with
`QueryExecutionError` carrying the service-provided state; and if no
terminal state appears within the ceiling, the run fails with
`QueryTimeout` after exactly `max_attempts` polls. -/
theorem claim8_wait_query_execution (env : QueryPollEnv) (max_attempts : Nat) :
    ((wait_query_execution env max_attempts).2 ≤ max_attempts) ∧
    (∀ k, k < max_attempts → (∀ j, j < k → NonTerminal (env.state j)) →
      (env.state k = "SUCCEEDED" →
        wait_query_execution env max_attempts =
          (Except.ok (env.outputLocation k), k + 1)) ∧
      ((env.state k = "CANCELLED" ∨ env.state k = "FAILED") →
        wait_query_execution env max_attempts =
          (Except.error (WaitErr.queryError (env.state k)), k + 1))) ∧
    ((∀ j, j < max_attempts → NonTerminal (env.state j)) →
      wait_query_execution env max_attempts =
        (Except.error WaitErr.queryTimeout, max_attempts)) := by
  refine ⟨waitFrom_poll_bound env max_attempts 0, ?_, ?_⟩
  · intro k hk hnt
    have := waitFrom_first_terminal env k 0 max_attempts hk
      (by intro j hj; simpa using hnt j hj)
    simpa using this
  · intro hnt
    exact waitFrom_timeout env max_attempts 0 (by intro j hj; simpa using hnt j hj)

/-- **C8, witness.** A query that reaches `SUCCEEDED` on the third poll
(attempt index 2) of 50 stops after 3 polls with the output location; a
query that stays `RUNNING` for all 50 attempts times out after exactly
50 polls. -/
theorem claim8_wait_query_execution_witness :
    wait_query_execution
      ⟨fun k => if k < 2 then "RUNNING" else "SUCCEEDED", fun _ => "s3://out/loc"⟩ 50 =
      (Except.ok "s3://out/loc", 3) ∧
    wait_query_execution ⟨fun _ => "RUNNING", fun _ => "s3://out/loc"⟩ 50 =
      (Except.error WaitErr.queryTimeout, 50) := by
  have hrun : NonTerminal "RUNNING" := by
    refine ⟨?_, ?_, ?_⟩ <;> decide
  constructor
  · have h :=
      ((claim8_wait_query_execution
        ⟨fun k => if k < 2 then "RUNNING" else "SUCCEEDED", fun _ => "s3://out/loc"⟩
        50).2.1 2 (by omega)
        (by
          intro j hj
          show NonTerminal (if j < 2 then "RUNNING" else "SUCCEEDED")
          rw [if_pos hj]
          exact hrun)).1 (by rfl)
    exact h
  · exact (claim8_wait_query_execution
      ⟨fun _ => "RUNNING", fun _ => "s3://out/loc"⟩ 50).2.2
      (fun j _ => hrun)

theorem enumerateFrom_foldl_fst {α : Type} :
    ∀ (l : List α) (n x : Nat),
      (enumerateFrom n l).foldl (fun _ p => p.1) x =
        if l.isEmpty then x else n + l.length - 1 := by
  intro l
  induction l with
  | nil => intro n x; rfl
  | cons a t ih =>
    intro n x
    show ((n, a) :: enumerateFrom (n + 1) t).foldl (fun _ p => p.1) x = _
    rw [List.foldl_cons]
    show (enumerateFrom (n + 1) t).foldl (fun _ p => p.1) n = _
    rw [ih (n + 1) n]
    cases t with
    | nil => simp
    | cons b t' =>
      simp only [List.isEmpty_cons, List.length_cons, Bool.false_eq_true, if_false]
      omega

/-- A list that decomposes around `needle` contains it as a substring. -/
theorem listContainsSub_of_parts (needle : List Char) :
    ∀ (pre post hay : List Char), hay = pre ++ needle ++ post →
      listContainsSub hay needle = true := by
  intro pre
  induction pre with
  | nil =>
    intro post hay hh
    simp only [List.nil_append] at hh
    subst hh
    cases hn : needle ++ post with
    | nil =>
      have : needle = [] := by
        cases needle with
        | nil => rfl
        | cons c t => cases hn
      rw [this]
      rfl
    | cons c t =>
      show (needle.isPrefixOf (c :: t) || listContainsSub t needle) = true
      have : needle.isPrefixOf (c :: t) = true := by
        rw [List.isPrefixOf_iff_prefix, ← hn]
        exact ⟨post, rfl⟩
      rw [this]
      rfl
  | cons p pre' ih =>
    intro post hay hh
    subst hh
    show (needle.isPrefixOf _ || listContainsSub (pre' ++ needle ++ post) needle) = true
    rw [ih post (pre' ++ needle ++ post) rfl]
    simp

/-- A string built around `b` contains `b` as a substring. -/
theorem strContainsSub_middle (a b c : String) :
    strContainsSub (a ++ b ++ c) b = true := by
  apply listContainsSub_of_parts b.data a.data c.data
  simp [strContainsSub, String.data_append]

/-- **C9, counterexample.** The claim says report generation writes one
file per product short name, at a path encoding the short name.  A run
whose result set holds rows of two distinct short names (`HLSS30` and
`HLSL30`) uploads exactly **one** object — covering both products — and
its key (the path built by the handler) mentions neither short name. -/
theorem claim9_report_files_counterexample :
    write_results_to_s3
      [["HLSS30", "2.0", "f1.tif", "100", "t", "NA"],
       ["HLSL30", "2.0", "f2.tif", "200", "t", "NA"]]
      (report_output_location "s3://reports" "2024240" "2.0") =
      some
        { tmpRows :=
            [["HLSS30", "2.0", "f1.tif", "100", "t", "NA"],
             ["HLSL30", "2.0", "f2.tif", "200", "t", "NA"]]
          finalI := 1
          uploaded :=
            some ("reports", "2024240/HLS_reconcile_2024240_2.0.csv",
              [["HLSS30", "2.0", "f1.tif", "100", "t", "NA"],
               ["HLSL30", "2.0", "f2.tif", "200", "t", "NA"]]) } ∧
    strContainsSub "2024240/HLS_reconcile_2024240_2.0.csv" "HLSS30" = false ∧
    strContainsSub "2024240/HLS_reconcile_2024240_2.0.csv" "HLSL30" = false :=
  ⟨by rfl, by rfl, by rfl⟩

/-- **C9 (amended).** Each report-generation run writes at most **one**
delimited file, covering all selected products together; the file has no
header row (its content is exactly the data rows); its deterministic path
encodes the report's year/day-of-year and the archive version (not the
product short name); and a run with zero matching records writes no
file. -/
theorem claim9_report_output_amended :
    (∀ (rows : List Row) (dest : String) (res : WriteResult),
      write_results_to_s3 rows dest = some res →
      res.tmpRows = rows ∧
      (∀ b k frows, res.uploaded = some (b, k, frows) → frows = rows) ∧
      (rows = [] → res.uploaded = none)) ∧
    (∀ pfx yj ver,
      strContainsSub (report_output_location pfx yj ver) yj = true ∧
      strContainsSub (report_output_location pfx yj ver) ver = true) := by
  constructor
  · intro rows dest res h
    rw [write_results_to_s3] at h
    rcases hsplit : splitFirstList ['/'] (stripS3Scheme dest.data) with _ | ⟨b, k⟩
    · rw [hsplit] at h
      cases h
    · rw [hsplit] at h
      simp only [Option.some.injEq] at h
      subst h
      refine ⟨rfl, ?_, ?_⟩
      · intro b' k' frows hup
        simp only at hup
        split at hup
        · simp only [Option.some.injEq, Prod.mk.injEq] at hup
          exact hup.2.2.symm
        · cases hup
      · intro hrows
        subst hrows
        simp [enumerateFrom]
  · intro pfx yj ver
    constructor
    · have hsplit : report_output_location pfx yj ver =
          (pfx ++ "/") ++ yj ++ ("/HLS_reconcile_" ++ yj ++ "_" ++ ver ++ ".csv") := by
        apply String.ext
        simp [report_output_location, String.data_append, List.append_assoc]
      rw [hsplit]
      exact strContainsSub_middle _ _ _
    · have hsplit : report_output_location pfx yj ver =
          (pfx ++ "/" ++ yj ++ "/HLS_reconcile_" ++ yj ++ "_") ++ ver ++ ".csv" := by
        apply String.ext
        simp [report_output_location, String.data_append, List.append_assoc]
      rw [hsplit]
      exact strContainsSub_middle _ _ _

/-- **C9, witness.** The amended claim at a concrete empty run and a
concrete path: no upload for zero rows, and the path contains the
year/day-of-year token and the version. -/
theorem claim9_report_output_witness :
    (({ tmpRows := [], finalI := 0, uploaded := none } : WriteResult).uploaded = none) ∧
    strContainsSub (report_output_location "s3://reports" "2024240" "2.0") "2024240" = true ∧
    strContainsSub (report_output_location "s3://reports" "2024240" "2.0") "2.0" = true :=
  ⟨((claim9_report_output_amended.1 [] "s3://reports/2024240/HLS_reconcile_2024240_2.0.csv"
      { tmpRows := [], finalI := 0, uploaded := none } (by rfl)).2.2 rfl),
   (claim9_report_output_amended.2 "s3://reports" "2024240" "2.0").1,
   (claim9_report_output_amended.2 "s3://reports" "2024240" "2.0").2⟩

/-- **C10.** The upload guard tests the final `enumerate` index (`i > 0`),
not a row count: the report object is uploaded iff the result set has at
least **two** data rows; with exactly one row, the row is written to the
temporary CSV but nothing is uploaded, exactly as with zero rows. -/
theorem claim10_upload_guard (rows : List Row) (dest : String) (res : WriteResult)
    (h : write_results_to_s3 rows dest = some res) :
    (res.uploaded.isSome = true ↔ 2 ≤ rows.length) ∧
    (rows.length = 1 → res.tmpRows = rows ∧ res.uploaded = none ∧ res.finalI = 0) := by
  rw [write_results_to_s3] at h
  rcases hsplit : splitFirstList ['/'] (stripS3Scheme dest.data) with _ | ⟨b, k⟩
  · rw [hsplit] at h
    cases h
  · rw [hsplit] at h
    simp only [Option.some.injEq] at h
    subst h
    have hi := enumerateFrom_foldl_fst rows 0 0
    constructor
    · simp only
      cases rows with
      | nil => simp [hi]
      | cons r rest =>
        rw [hi]
        simp only [List.isEmpty_cons, Bool.false_eq_true, if_false, List.length_cons]
        by_cases h2 : 0 < 0 + (rest.length + 1) - 1
        · simp only [if_pos h2, Option.isSome_some, true_iff]
          omega
        · simp only [if_neg h2, Option.isSome_none]
          constructor
          · intro hcon
            cases hcon
          · intro hlen
            omega
    · intro hlen
      cases rows with
      | nil => cases hlen
      | cons r rest =>
        have : rest = [] := by
          simp only [List.length_cons] at hlen
          exact List.length_eq_zero.mp (by omega)
        subst this
        refine ⟨rfl, ?_, ?_⟩
        · simp [hi]
        · simp [hi]

/-- **C10, witness.** With exactly one data row the temporary CSV holds the
row but nothing is uploaded. -/
theorem claim10_upload_guard_witness :
    write_results_to_s3 [["HLSS30", "2.0", "f1.tif", "100", "t", "NA"]] "s3://b/p/k.csv" =
      some { tmpRows := [["HLSS30", "2.0", "f1.tif", "100", "t", "NA"]],
             finalI := 0, uploaded := none } ∧
    ({ tmpRows := [["HLSS30", "2.0", "f1.tif", "100", "t", "NA"]],
       finalI := 0, uploaded := none } : WriteResult).uploaded = none :=
  ⟨by rfl,
   ((claim10_upload_guard [["HLSS30", "2.0", "f1.tif", "100", "t", "NA"]]
      "s3://b/p/k.csv"
      { tmpRows := [["HLSS30", "2.0", "f1.tif", "100", "t", "NA"]],
        finalI := 0, uploaded := none } (by rfl)).2 rfl).2.1⟩

/-! ### Verification of the report-location matcher (claim C7) -/

theorem drop_takeWhile_length (p : Char → Bool) (l : List Char) :
    l.drop (l.takeWhile p).length = l.dropWhile p := by
  have h := List.takeWhile_append_dropWhile p l
  have h2 : (l.takeWhile p ++ l.dropWhile p).drop (l.takeWhile p).length =
      l.dropWhile p := List.drop_left _ _
  rw [h] at h2
  exact h2

/-- `takeWhile` walks through a block that satisfies the predicate. -/
theorem takeWhile_append_of_all (p : Char → Bool) :
    ∀ (a r : List Char), (∀ c ∈ a, p c = true) →
      (a ++ r).takeWhile p = a ++ r.takeWhile p := by
  intro a
  induction a with
  | nil => intro r _; rfl
  | cons c t ih =>
    intro r h
    have hc : p c = true := h c (List.mem_cons_self _ _)
    simp only [List.cons_append, List.takeWhile_cons, hc, if_true]
    rw [ih r (fun x hx => h x (List.mem_cons_of_mem _ hx))]

/-- `takeWhile` stops at a failing head. -/
theorem takeWhile_cons_of_neg (p : Char → Bool) (c : Char) (t : List Char)
    (h : p c = false) : (c :: t).takeWhile p = [] := by
  simp [List.takeWhile_cons, h]

/-- Unfolding equation for `locFrom` (the `let` is definitional). -/
theorem locFrom_eq (rest : List Char) :
    locFrom rest =
      match ((List.range ((rest.takeWhile notNL)).length).filter
          (fun p => decide (1 ≤ p) &&
            decide (getElem? (rest.takeWhile notNL) p = some '.'))).max? with
      | none => none
      | some p => some ((rest.takeWhile notNL).take p) := rfl

theorem locFrom_sound {rest loc : List Char} (h : locFrom rest = some loc) :
    ∃ post, rest = loc ++ '.' :: post ∧ loc ≠ [] ∧ ∀ c ∈ loc, notNL c = true := by
  rw [locFrom_eq] at h
  rcases hmax : ((List.range ((rest.takeWhile notNL)).length).filter
      (fun p => decide (1 ≤ p) &&
        decide (getElem? (rest.takeWhile notNL) p = some '.'))).max? with _ | p
  · rw [hmax] at h
    cases h
  · rw [hmax] at h
    simp only [Option.some.injEq] at h
    subst h
    obtain ⟨hpmem, _⟩ := List.max?_eq_some_iff'.mp hmax
    rw [List.mem_filter] at hpmem
    obtain ⟨hprange, hpred⟩ := hpmem
    rw [List.mem_range] at hprange
    simp only [Bool.and_eq_true, decide_eq_true_eq] at hpred
    obtain ⟨hp1, hpdot⟩ := hpred
    set line := rest.takeWhile notNL with hline
    obtain ⟨hplt, hpel⟩ := List.getElem?_eq_some.mp hpdot
    have hdropline : line.drop p = '.' :: line.drop (p + 1) := by
      rw [List.drop_eq_getElem_cons hplt, hpel]
    refine ⟨line.drop (p + 1) ++ rest.dropWhile notNL, ?_, ?_, ?_⟩
    · conv_lhs => rw [← List.takeWhile_append_dropWhile notNL rest]
      conv_lhs => rw [← hline, ← List.take_append_drop p line, hdropline]
      simp [List.append_assoc]
    · apply List.ne_nil_of_length_pos
      rw [List.length_take]
      omega
    · intro c hc
      exact List.mem_takeWhile_imp (List.mem_of_mem_take hc)

theorem locFrom_complete (loc' post : List Char) (hne : loc' ≠ [])
    (hnl : ∀ c ∈ loc', notNL c = true) :
    locFrom (loc' ++ '.' :: post) ≠ none := by
  intro hcon
  rw [locFrom_eq] at hcon
  have hlineEq : (loc' ++ '.' :: post).takeWhile notNL =
      loc' ++ '.' :: post.takeWhile notNL := by
    rw [takeWhile_append_of_all notNL loc' ('.' :: post) hnl]
    simp [List.takeWhile_cons, notNL]
  have hlen : loc'.length <
      ((loc' ++ '.' :: post).takeWhile notNL).length := by
    rw [hlineEq]
    simp
  have hget : getElem? ((loc' ++ '.' :: post).takeWhile notNL) loc'.length =
      some '.' := by
    rw [hlineEq, List.getElem?_append]
    simp
  have hmem : loc'.length ∈ (List.range (((loc' ++ '.' :: post).takeWhile notNL)).length).filter
      (fun p => decide (1 ≤ p) &&
        decide (getElem? ((loc' ++ '.' :: post).takeWhile notNL) p = some '.')) := by
    rw [List.mem_filter, List.mem_range]
    refine ⟨hlen, ?_⟩
    simp only [Bool.and_eq_true, decide_eq_true_eq]
    refine ⟨?_, hget⟩
    cases loc' with
    | nil => exact absurd rfl hne
    | cons _ _ => simp
  rcases hmax : ((List.range (((loc' ++ '.' :: post).takeWhile notNL)).length).filter
      (fun p => decide (1 ≤ p) &&
        decide (getElem? ((loc' ++ '.' :: post).takeWhile notNL) p = some '.'))).max? with _ | k
  · have : _ = ([] : List Nat) := List.max?_eq_none_iff.mp hmax
    rw [this] at hmem
    exact absurd hmem (List.not_mem_nil _)
  · rw [hmax] at hcon
    cases hcon

/-- `.+` is greedy: the location chosen by `locFrom` is at least as long as
any competing single-line location ending in a dot at the same start. -/
theorem locFrom_max {rest loc : List Char} (h : locFrom rest = some loc) :
    ∀ loc' post', rest = loc' ++ '.' :: post' → loc' ≠ [] →
      (∀ c ∈ loc', notNL c = true) → loc'.length ≤ loc.length := by
  intro loc' post' hdec hne hnl
  rw [locFrom_eq] at h
  rcases hmax : ((List.range ((rest.takeWhile notNL)).length).filter
      (fun p => decide (1 ≤ p) &&
        decide (getElem? (rest.takeWhile notNL) p = some '.'))).max? with _ | p
  · rw [hmax] at h
    cases h
  · rw [hmax] at h
    simp only [Option.some.injEq] at h
    subst h
    obtain ⟨hpmem, hall⟩ := List.max?_eq_some_iff'.mp hmax
    rw [List.mem_filter, List.mem_range] at hpmem
    obtain ⟨hprange, _⟩ := hpmem
    have hlineEq : rest.takeWhile notNL = loc' ++ '.' :: post'.takeWhile notNL := by
      rw [hdec, takeWhile_append_of_all notNL loc' ('.' :: post') hnl]
      simp [List.takeWhile_cons, notNL]
    have hlen : loc'.length < (rest.takeWhile notNL).length := by
      rw [hlineEq]
      simp
    have hget : getElem? (rest.takeWhile notNL) loc'.length = some '.' := by
      rw [hlineEq, List.getElem?_append]
      simp
    have hmem : loc'.length ∈ (List.range ((rest.takeWhile notNL)).length).filter
        (fun p => decide (1 ≤ p) &&
          decide (getElem? (rest.takeWhile notNL) p = some '.')) := by
      rw [List.mem_filter, List.mem_range]
      refine ⟨hlen, ?_⟩
      simp only [Bool.and_eq_true, decide_eq_true_eq]
      refine ⟨?_, hget⟩
      cases loc' with
      | nil => exact absurd rfl hne
      | cons _ _ => simp
    have hlep : loc'.length ≤ p := hall _ hmem
    have htlen : ((rest.takeWhile notNL).take p).length = p := by
      rw [List.length_take]
      omega
    rw [htlen]
    exact hlep

theorem wsBacktrack_sound (rest : List Char) :
    ∀ (w : Nat) (loc : List Char), wsBacktrack rest w = some loc →
      ∃ w', 1 ≤ w' ∧ w' ≤ w ∧ locFrom (rest.drop w') = some loc ∧
        ∀ w'', w' < w'' → w'' ≤ w → locFrom (rest.drop w'') = none := by
  intro w
  induction w with
  | zero =>
    intro loc h
    cases h
  | succ w ih =>
    intro loc h
    rw [wsBacktrack] at h
    rcases hl : locFrom (rest.drop (w + 1)) with _ | loc'
    · rw [hl] at h
      obtain ⟨w', h1, h2, h3, h4⟩ := ih loc h
      refine ⟨w', h1, Nat.le_succ_of_le h2, h3, ?_⟩
      intro w'' hgt hle
      rcases Nat.lt_or_ge w'' (w + 1) with hlt | hge
      · exact h4 w'' hgt (by omega)
      · have hw'' : w'' = w + 1 := by omega
        rw [hw'']
        exact hl
    · rw [hl] at h
      simp only [Option.some.injEq] at h
      subst h
      refine ⟨w + 1, Nat.succ_le_succ (Nat.zero_le w), Nat.le_refl _, hl, ?_⟩
      intro w'' hgt hle
      omega

theorem wsBacktrack_complete (rest : List Char) :
    ∀ (w w' : Nat), 1 ≤ w' → w' ≤ w → locFrom (rest.drop w') ≠ none →
      wsBacktrack rest w ≠ none := by
  intro w
  induction w with
  | zero =>
    intro w' h1 h2 _
    omega
  | succ w ih =>
    intro w' h1 h2 hfrom
    rw [wsBacktrack]
    rcases hl : locFrom (rest.drop (w + 1)) with _ | loc'
    · show wsBacktrack rest w ≠ none
      rcases Nat.lt_or_ge w' (w + 1) with hlt | hge
      · exact ih w' h1 (by omega) hfrom
      · have : w' = w + 1 := by omega
        rw [this] at hfrom
        exact absurd hl hfrom
    · simp

theorem afterAt_sound {rest loc : List Char} (h : afterAt rest = some loc) :
    ∃ w post, rest = w ++ loc ++ '.' :: post ∧ w ≠ [] ∧
      (∀ c ∈ w, pySpace c = true) ∧ loc ≠ [] ∧ (∀ c ∈ loc, notNL c = true) ∧
      ∀ w' loc' post', rest = w' ++ loc' ++ '.' :: post' → w' ≠ [] →
        (∀ c ∈ w', pySpace c = true) → loc' ≠ [] → (∀ c ∈ loc', notNL c = true) →
        w'.length ≤ w.length ∧
          (w'.length = w.length → loc'.length ≤ loc.length) := by
  obtain ⟨w', h1, h2, hloc, hmaxw⟩ := wsBacktrack_sound rest _ loc h
  obtain ⟨post, hdecomp, hne, hnl⟩ := locFrom_sound hloc
  have hw'lt : w' < rest.length := by
    by_contra hge
    push_neg at hge
    have : rest.drop w' = [] := List.drop_eq_nil_of_le hge
    rw [this] at hdecomp
    exact absurd hdecomp.symm (by simp)
  have hwlen : (rest.take w').length = w' := by
    rw [List.length_take]
    omega
  refine ⟨rest.take w', post, ?_, ?_, ?_, hne, hnl, ?_⟩
  · rw [List.append_assoc, ← hdecomp]
    exact (List.take_append_drop w' rest).symm
  · apply List.ne_nil_of_length_pos
    rw [List.length_take]
    omega
  · intro c hc
    exact takeWhile_window pySpace rest w' h2 c hc
  · intro v loc' post' hdec' hvne hvsp hlocne' hlocnl'
    have hassoc' : rest = v ++ (loc' ++ '.' :: post') := by
      rw [hdec', List.append_assoc]
    have htake' : rest.take v.length = v := by
      rw [hassoc', List.take_left]
    have hlenle : v.length ≤ rest.length := by
      rw [hassoc']
      simp
    have hW : v.length ≤ (rest.takeWhile pySpace).length := by
      apply le_length_takeWhile pySpace rest v.length hlenle
      intro c hc
      rw [htake'] at hc
      exact hvsp c hc
    have hdrop' : rest.drop v.length = loc' ++ '.' :: post' := by
      rw [hassoc']
      exact List.drop_left _ _
    have hnn : locFrom (rest.drop v.length) ≠ none := by
      rw [hdrop']
      exact locFrom_complete loc' post' hlocne' hlocnl'
    have hle : v.length ≤ w' := by
      by_contra hgt
      push_neg at hgt
      exact hnn (hmaxw v.length hgt hW)
    constructor
    · rw [hwlen]
      exact hle
    · intro heq
      rw [hwlen] at heq
      rw [heq] at hdrop'
      exact locFrom_max hloc loc' post' hdrop' hlocne' hlocnl'

theorem afterAt_complete (w loc' post : List Char) (hw : w ≠ [])
    (hws : ∀ c ∈ w, pySpace c = true) (hne : loc' ≠ [])
    (hnl : ∀ c ∈ loc', notNL c = true) :
    afterAt (w ++ loc' ++ '.' :: post) ≠ none := by
  have hrest : w ++ loc' ++ '.' :: post = w ++ (loc' ++ '.' :: post) :=
    List.append_assoc w loc' ('.' :: post)
  have hdrop : (w ++ loc' ++ '.' :: post).drop w.length = loc' ++ '.' :: post := by
    rw [hrest, List.drop_left]
  have hwle : w.length ≤ ((w ++ loc' ++ '.' :: post).takeWhile pySpace).length := by
    apply le_length_takeWhile
    · rw [hrest]
      simp
    · intro c hc
      have : (w ++ loc' ++ '.' :: post).take w.length = w := by
        rw [hrest, List.take_left]
      rw [this] at hc
      exact hws c hc
  have hw1 : 1 ≤ w.length := by
    cases w with
    | nil => exact absurd rfl hw
    | cons _ _ => simp
  apply wsBacktrack_complete (w ++ loc' ++ '.' :: post) _ w.length hw1 hwle
  rw [hdrop]
  exact locFrom_complete loc' post hne hnl

theorem prefix_drop_eq {a b l : List Char} (h : a ++ b = l) :
    l.drop a.length = b := by
  rw [← h]
  exact List.drop_left a b

theorem matchKeywordAt_sound {l loc : List Char} (h : matchKeywordAt l = some loc) :
    ∃ w₁ w₂ w₃ post,
      l = "Report".data ++ w₁ ++ "available".data ++ w₂ ++ "at".data ++ w₃
        ++ loc ++ '.' :: post ∧
      w₁ ≠ [] ∧ (∀ c ∈ w₁, pySpace c = true) ∧
      w₂ ≠ [] ∧ (∀ c ∈ w₂, pySpace c = true) ∧
      w₃ ≠ [] ∧ (∀ c ∈ w₃, pySpace c = true) ∧
      loc ≠ [] ∧ (∀ c ∈ loc, notNL c = true) ∧
      ∀ w₃' loc' post', w₃ ++ loc ++ '.' :: post = w₃' ++ loc' ++ '.' :: post' →
        w₃' ≠ [] → (∀ c ∈ w₃', pySpace c = true) → loc' ≠ [] →
        (∀ c ∈ loc', notNL c = true) →
        w₃'.length ≤ w₃.length ∧
          (w₃'.length = w₃.length → loc'.length ≤ loc.length) := by
  rw [matchKeywordAt] at h
  by_cases h1 : "Report".data.isPrefixOf l = true
  case neg =>
    rw [if_neg h1] at h
    cases h
  rw [if_pos h1] at h
  simp only [] at h
  set r1 := l.drop 6 with hr1
  set w1 := (r1.takeWhile pySpace).length with hw1
  by_cases hz1 : w1 = 0
  case pos =>
    rw [if_pos hz1] at h
    cases h
  rw [if_neg hz1] at h
  set r2 := r1.drop w1 with hr2
  by_cases h2 : "available".data.isPrefixOf r2 = true
  case neg =>
    rw [if_neg h2] at h
    cases h
  rw [if_pos h2] at h
  set r3 := r2.drop 9 with hr3
  set w2 := (r3.takeWhile pySpace).length with hw2
  by_cases hz2 : w2 = 0
  case pos =>
    rw [if_pos hz2] at h
    cases h
  rw [if_neg hz2] at h
  set r4 := r3.drop w2 with hr4
  by_cases h3 : "at".data.isPrefixOf r4 = true
  case neg =>
    rw [if_neg h3] at h
    cases h
  rw [if_pos h3] at h
  obtain ⟨w₃, post, hdecomp, hw3ne, hw3sp, hlocne, hlocnl, hcmp⟩ := afterAt_sound h
  obtain ⟨rest1, hrest1⟩ := List.isPrefixOf_iff_prefix.mp h1
  obtain ⟨rest2, hrest2⟩ := List.isPrefixOf_iff_prefix.mp h2
  obtain ⟨rest3, hrest3⟩ := List.isPrefixOf_iff_prefix.mp h3
  have hr1e : r1 = rest1 := by
    rw [hr1]
    exact prefix_drop_eq hrest1
  have hr3e : r3 = rest2 := by
    rw [hr3]
    exact prefix_drop_eq hrest2
  have hr4d : r4.drop 2 = rest3 := prefix_drop_eq hrest3
  have hr1decomp : r1 = r1.takeWhile pySpace ++ r2 := by
    rw [hr2, hw1, drop_takeWhile_length]
    exact (List.takeWhile_append_dropWhile pySpace r1).symm
  have hr3decomp : r3 = r3.takeWhile pySpace ++ r4 := by
    rw [hr4, hw2, drop_takeWhile_length]
    exact (List.takeWhile_append_dropWhile pySpace r3).symm
  have hl : l = "Report".data ++
      (r1.takeWhile pySpace ++ ("available".data ++
        (r3.takeWhile pySpace ++ ("at".data ++ (w₃ ++ (loc ++ '.' :: post)))))) := by
    calc l = "Report".data ++ rest1 := hrest1.symm
      _ = "Report".data ++ r1 := by rw [hr1e]
      _ = "Report".data ++ (r1.takeWhile pySpace ++ r2) := by rw [← hr1decomp]
      _ = "Report".data ++ (r1.takeWhile pySpace ++ ("available".data ++ rest2)) := by
          rw [hrest2]
      _ = "Report".data ++ (r1.takeWhile pySpace ++ ("available".data ++ r3)) := by
          rw [hr3e]
      _ = "Report".data ++ (r1.takeWhile pySpace ++ ("available".data ++
            (r3.takeWhile pySpace ++ r4))) := by rw [← hr3decomp]
      _ = "Report".data ++ (r1.takeWhile pySpace ++ ("available".data ++
            (r3.takeWhile pySpace ++ ("at".data ++ rest3)))) := by rw [hrest3]
      _ = _ := by
            rw [← hr4d, hdecomp]
            simp [List.append_assoc]
  refine ⟨r1.takeWhile pySpace, r3.takeWhile pySpace, w₃, post, ?_, ?_, ?_, ?_, ?_,
    hw3ne, hw3sp, hlocne, hlocnl, ?_⟩
  · rw [hl]
    simp [List.append_assoc]
  · apply List.ne_nil_of_length_pos
    rw [← hw1]
    omega
  · intro c hc
    exact List.mem_takeWhile_imp hc
  · apply List.ne_nil_of_length_pos
    rw [← hw2]
    omega
  · intro c hc
    exact List.mem_takeWhile_imp hc
  · intro w₃' loc' post' heq hwne' hws' hlocne' hlocnl'
    exact hcmp w₃' loc' post' (by rw [hdecomp, heq]) hwne' hws' hlocne' hlocnl'

theorem matchKeywordAt_complete (w₁ w₂ w₃ loc post : List Char)
    (hw1 : w₁ ≠ []) (hs1 : ∀ c ∈ w₁, pySpace c = true)
    (hw2 : w₂ ≠ []) (hs2 : ∀ c ∈ w₂, pySpace c = true)
    (hw3 : w₃ ≠ []) (hs3 : ∀ c ∈ w₃, pySpace c = true)
    (hlocne : loc ≠ []) (hlocnl : ∀ c ∈ loc, notNL c = true) :
    matchKeywordAt ("Report".data ++ w₁ ++ "available".data ++ w₂ ++ "at".data
      ++ w₃ ++ loc ++ '.' :: post) ≠ none := by
  have hnorm : "Report".data ++ w₁ ++ "available".data ++ w₂ ++ "at".data
      ++ w₃ ++ loc ++ '.' :: post =
      "Report".data ++ (w₁ ++ ("available".data ++ (w₂ ++ ("at".data ++
        (w₃ ++ loc ++ '.' :: post))))) := by
    simp [List.append_assoc]
  rw [hnorm]
  set R := w₁ ++ ("available".data ++ (w₂ ++ ("at".data ++ (w₃ ++ loc ++ '.' :: post))))
    with hR
  have htwAvail : ∀ X : List Char, ("available".data ++ X).takeWhile pySpace = [] := by
    intro X
    have hav : ("available".data : List Char) ++ X = 'a' :: ("vailable".data ++ X) := rfl
    rw [hav]
    exact takeWhile_cons_of_neg pySpace 'a' _ rfl
  have htwAt : ∀ X : List Char, ("at".data ++ X).takeWhile pySpace = [] := by
    intro X
    have hat : ("at".data : List Char) ++ X = 'a' :: ("t".data ++ X) := rfl
    rw [hat]
    exact takeWhile_cons_of_neg pySpace 'a' _ rfl
  have h1 : "Report".data.isPrefixOf ("Report".data ++ R) = true :=
    List.isPrefixOf_iff_prefix.mpr ⟨R, rfl⟩
  have hdrop6 : ("Report".data ++ R).drop 6 = R := by
    simpa using List.drop_left "Report".data R
  have htw1 : R.takeWhile pySpace = w₁ := by
    rw [hR, takeWhile_append_of_all pySpace w₁ _ hs1, htwAvail]
    simp
  have hdropw1 : R.drop w₁.length = "available".data ++ (w₂ ++ ("at".data ++
      (w₃ ++ loc ++ '.' :: post))) := by
    rw [hR]
    exact prefix_drop_eq rfl
  have hw1pos : w₁.length ≠ 0 := by
    cases w₁ with
    | nil => exact absurd rfl hw1
    | cons _ _ => simp
  set R2 := w₂ ++ ("at".data ++ (w₃ ++ loc ++ '.' :: post)) with hR2
  have h2 : "available".data.isPrefixOf ("available".data ++ R2) = true :=
    List.isPrefixOf_iff_prefix.mpr ⟨R2, rfl⟩
  have hdrop9 : ("available".data ++ R2).drop 9 = R2 := by
    simpa using List.drop_left "available".data R2
  have htw2 : R2.takeWhile pySpace = w₂ := by
    rw [hR2, takeWhile_append_of_all pySpace w₂ _ hs2, htwAt]
    simp
  have hdropw2 : R2.drop w₂.length = "at".data ++ (w₃ ++ loc ++ '.' :: post) := by
    rw [hR2]
    exact prefix_drop_eq rfl
  have hw2pos : w₂.length ≠ 0 := by
    cases w₂ with
    | nil => exact absurd rfl hw2
    | cons _ _ => simp
  set R3 := w₃ ++ loc ++ '.' :: post with hR3
  have h3 : "at".data.isPrefixOf ("at".data ++ R3) = true :=
    List.isPrefixOf_iff_prefix.mpr ⟨R3, rfl⟩
  have hdrop2 : ("at".data ++ R3).drop 2 = R3 := by
    simpa using List.drop_left "at".data R3
  have hafter : afterAt R3 ≠ none := by
    rw [hR3]
    exact afterAt_complete w₃ loc post hw3 hs3 hlocne hlocnl
  intro hcon
  rw [matchKeywordAt, if_pos h1] at hcon
  simp only [] at hcon
  rw [hdrop6, htw1] at hcon
  rw [if_neg hw1pos] at hcon
  rw [hdropw1] at hcon
  rw [if_pos h2] at hcon
  rw [hdrop9, htw2] at hcon
  rw [if_neg hw2pos] at hcon
  rw [hdropw2] at hcon
  rw [if_pos h3] at hcon
  rw [hdrop2] at hcon
  exact hafter hcon

theorem searchReportLoc_sound :
    ∀ {l loc : List Char}, searchReportLoc l = some loc →
      ∃ pre suf, l = pre ++ suf ∧ matchKeywordAt suf = some loc ∧
        ∀ pre' suf', l = pre' ++ suf' → matchKeywordAt suf' ≠ none →
          pre.length ≤ pre'.length := by
  intro l
  induction l with
  | nil =>
    intro loc h
    cases h
  | cons c t ih =>
    intro loc h
    rw [searchReportLoc] at h
    rcases hm : matchKeywordAt (c :: t) with _ | loc'
    · rw [hm] at h
      obtain ⟨pre, suf, hpre, hmatch, hmin⟩ := ih h
      refine ⟨c :: pre, suf, by rw [hpre]; rfl, hmatch, ?_⟩
      intro pre' suf' hl' hm'
      cases pre' with
      | nil =>
        simp only [List.nil_append] at hl'
        rw [← hl'] at hm'
        exact absurd hm hm'
      | cons p pre'' =>
        simp only [List.cons_append, List.cons.injEq] at hl'
        have := hmin pre'' suf' hl'.2 hm'
        simp only [List.length_cons]
        omega
    · rw [hm] at h
      simp only [Option.some.injEq] at h
      subst h
      refine ⟨[], c :: t, rfl, hm, ?_⟩
      intro pre' suf' _ _
      simp

theorem searchReportLoc_complete :
    ∀ (l pre suf : List Char), l = pre ++ suf → matchKeywordAt suf ≠ none →
      searchReportLoc l ≠ none := by
  intro l
  induction l with
  | nil =>
    intro pre suf hl hm
    have hsuf : suf = [] := by
      cases pre <;> cases suf <;> first | rfl | cases hl
    rw [hsuf] at hm
    exact absurd rfl hm
  | cons c t ih =>
    intro pre suf hl hm
    rw [searchReportLoc]
    rcases hmc : matchKeywordAt (c :: t) with _ | loc'
    · show searchReportLoc t ≠ none
      cases pre with
      | nil =>
        simp only [List.nil_append] at hl
        rw [← hl] at hm
        exact absurd hmc hm
      | cons p pre' =>
        simp only [List.cons_append, List.cons.injEq] at hl
        exact ih pre' suf hl.2 hm
    · simp

/-- Two whitespace runs in front of blocks with non-whitespace heads that
decompose the same list coincide. -/
theorem ws_block_unique :
    ∀ (w w' t t' : List Char),
      (∀ x ∈ w, pySpace x = true) → (∀ x ∈ w', pySpace x = true) →
      (∀ c r, t = c :: r → pySpace c = false) →
      (∀ c r, t' = c :: r → pySpace c = false) →
      w ++ t = w' ++ t' → w = w' ∧ t = t' := by
  intro w
  induction w with
  | nil =>
    intro w' t t' _ hw' ht _ h
    cases w' with
    | nil =>
      simp only [List.nil_append] at h
      exact ⟨rfl, h⟩
    | cons b w₂ =>
      simp only [List.nil_append, List.cons_append] at h
      have hb : pySpace b = true := hw' b (List.mem_cons_self _ _)
      have hb' : pySpace b = false := ht b (w₂ ++ t') h
      rw [hb] at hb'
      cases hb'
  | cons a w₂ ih =>
    intro w' t t' hw hw' ht ht' h
    cases w' with
    | nil =>
      simp only [List.cons_append, List.nil_append] at h
      have ha : pySpace a = true := hw a (List.mem_cons_self _ _)
      have ha' : pySpace a = false := ht' a (w₂ ++ t) h.symm
      rw [ha] at ha'
      cases ha'
    | cons b w₂' =>
      simp only [List.cons_append, List.cons.injEq] at h
      obtain ⟨hab, h2⟩ := h
      obtain ⟨hweq, hteq⟩ := ih w₂' t t'
        (fun x hx => hw x (List.mem_cons_of_mem _ hx))
        (fun x hx => hw' x (List.mem_cons_of_mem _ hx)) ht ht' h2
      subst hab
      exact ⟨by rw [hweq], hteq⟩

/-- The `\s+` runs after `Report` and after `available` are forced (the
following literals start with the non-whitespace `'a'`), so two
decompositions of the same suffix into the keyword pattern agree on
everything up to and including `at`, hence on the tail after `at`. -/
theorem decomp_forcing {w₁ w₂ w₁' w₂' T T' : List Char}
    (hs1 : ∀ c ∈ w₁, pySpace c = true) (hs1' : ∀ c ∈ w₁', pySpace c = true)
    (hs2 : ∀ c ∈ w₂, pySpace c = true) (hs2' : ∀ c ∈ w₂', pySpace c = true)
    (h : "Report".data ++ (w₁ ++ ("available".data ++ (w₂ ++ ("at".data ++ T)))) =
      "Report".data ++ (w₁' ++ ("available".data ++ (w₂' ++ ("at".data ++ T'))))) :
    T = T' := by
  have hheadAvail : ∀ (X : List Char) (c : Char) (r : List Char),
      "available".data ++ X = c :: r → pySpace c = false := by
    intro X c r hx
    have hx' : 'a' :: ("vailable".data ++ X) = c :: r := hx
    injection hx' with h1 _
    rw [← h1]
    rfl
  have hheadAt : ∀ (X : List Char) (c : Char) (r : List Char),
      "at".data ++ X = c :: r → pySpace c = false := by
    intro X c r hx
    have hx' : 'a' :: ("t".data ++ X) = c :: r := hx
    injection hx' with h1 _
    rw [← h1]
    rfl
  have h1 : w₁ ++ ("available".data ++ (w₂ ++ ("at".data ++ T))) =
      w₁' ++ ("available".data ++ (w₂' ++ ("at".data ++ T'))) :=
    List.append_cancel_left h
  obtain ⟨_, htail1⟩ := ws_block_unique w₁ w₁'
    ("available".data ++ (w₂ ++ ("at".data ++ T)))
    ("available".data ++ (w₂' ++ ("at".data ++ T')))
    hs1 hs1' (hheadAvail _) (hheadAvail _) h1
  have h2 : w₂ ++ ("at".data ++ T) = w₂' ++ ("at".data ++ T') :=
    List.append_cancel_left htail1
  obtain ⟨_, htail2⟩ := ws_block_unique w₂ w₂' ("at".data ++ T)
    ("at".data ++ T') hs2 hs2' (hheadAt _) (hheadAt _) h2
  exact List.append_cancel_left htail2

/-- The part before the first occurrence of a one-character separator does
not contain the separator. -/
theorem splitFirst_single_not_mem (c : Char) :
    ∀ (hay a b : List Char), splitFirstList [c] hay = some (a, b) → c ∉ a := by
  intro hay
  induction hay with
  | nil =>
    intro a b h
    cases h
  | cons d t ih =>
    intro a b h
    by_cases hp : [c].isPrefixOf (d :: t) = true
    · simp only [splitFirstList, hp, if_true, Option.some.injEq, Prod.mk.injEq] at h
      rw [← h.1]
      exact List.not_mem_nil c
    · rw [Bool.not_eq_true] at hp
      simp only [splitFirstList, hp, Bool.false_eq_true, if_false] at h
      rcases hr : splitFirstList [c] t with _ | ⟨a', b'⟩
      · rw [hr] at h
        cases h
      · rw [hr] at h
        simp only [Option.some.injEq, Prod.mk.injEq] at h
        obtain ⟨ha, _⟩ := h
        rw [← ha]
        intro hmem
        rcases List.mem_cons.mp hmem with hcd | hmem'
        · have : c ≠ d := by
            intro hcd'
            rw [hcd'] at hp
            simp [List.isPrefixOf] at hp
          exact this hcd
        · exact ih a' b' hr hmem'

/-- A match of the pattern `Report\s+available\s+at\s+(?P<loc>.+)[.]` in
`msg` with its start and its final whitespace run made explicit: `pre` is
the part of the message before the match and `w₃` the run consumed by the
final `\s+` before the location group `loc`.  The literal keywords are
separated by nonempty whitespace runs, the location is nonempty and
single-line, and a literal dot follows. -/
def ReportLocMatchParts (msg pre w₃ loc : List Char) : Prop :=
  ∃ w₁ w₂ post,
    msg = pre ++ "Report".data ++ w₁ ++ "available".data ++ w₂ ++ "at".data
      ++ w₃ ++ loc ++ '.' :: post ∧
    w₁ ≠ [] ∧ (∀ c ∈ w₁, pySpace c = true) ∧
    w₂ ≠ [] ∧ (∀ c ∈ w₂, pySpace c = true) ∧
    w₃ ≠ [] ∧ (∀ c ∈ w₃, pySpace c = true) ∧
    loc ≠ [] ∧ (∀ c ∈ loc, notNL c = true)

/-- A match of the pattern somewhere in `msg`, stated from the spec's
words. -/
def ReportLocMatch (msg loc : List Char) : Prop :=
  ∃ pre w₃, ReportLocMatchParts msg pre w₃ loc

theorem extract_eq_notfound {msg : String}
    (hs : searchReportLoc msg.data = none) :
    extract_report_location msg =
      Except.error ExtractErr.reportLocationNotFound := by
  rw [extract_report_location, hs]

theorem extract_eq_unpack {msg : String} {loc₀ : List Char}
    (hs : searchReportLoc msg.data = some loc₀)
    (hsp : splitFirstList ['/'] loc₀ = none) :
    extract_report_location msg = Except.error ExtractErr.unpackError := by
  rw [extract_report_location, hs]
  show (match splitFirstList ['/'] loc₀ with
    | none => Except.error ExtractErr.unpackError
    | some (b, k) => Except.ok (String.mk b, String.mk k)) =
      Except.error ExtractErr.unpackError
  rw [hsp]

theorem extract_eq_ok {msg : String} {loc₀ bd kd : List Char}
    (hs : searchReportLoc msg.data = some loc₀)
    (hsp : splitFirstList ['/'] loc₀ = some (bd, kd)) :
    extract_report_location msg = Except.ok (String.mk bd, String.mk kd) := by
  rw [extract_report_location, hs]
  show (match splitFirstList ['/'] loc₀ with
    | none => Except.error ExtractErr.unpackError
    | some (b, k) => Except.ok (String.mk b, String.mk k)) =
      Except.ok (String.mk bd, String.mk kd)
  rw [hsp]

/-- **C7.** `extract_report_location` returns the **first** match of
`"Report available at <loc>."` split at the first `/` into
`(bucket, key)`: on success the message decomposes around the matched
location `bucket/key` (bucket containing no `/`) at a start position that
is minimal over *all* matches of the pattern, and among matches at that
position the final whitespace run is longest and, for that run, the
location is longest — exactly Python's `re.search` disambiguation
(leftmost start, then greedy `\s+`, then greedy `.+`), which determines
the match uniquely.  The report-location-not-found error is raised exactly
when the message contains no match of the pattern; in particular
`extract_report_location("Report available at my-bucket/reports/r.json.")`
is `("my-bucket", "reports/r.json")`. -/
theorem claim7_extract_report_location :
    (extract_report_location "Report available at my-bucket/reports/r.json." =
      Except.ok ("my-bucket", "reports/r.json")) ∧
    (∀ msg : String,
      extract_report_location msg = Except.error ExtractErr.reportLocationNotFound ↔
        ¬∃ loc, ReportLocMatch msg.data loc) ∧
    (∀ msg b k : String, extract_report_location msg = Except.ok (b, k) →
      '/' ∉ b.data ∧
      ∃ pre w₃, ReportLocMatchParts msg.data pre w₃ (b.data ++ '/' :: k.data) ∧
        ∀ pre' w₃' loc', ReportLocMatchParts msg.data pre' w₃' loc' →
          pre.length ≤ pre'.length ∧
          (pre'.length = pre.length →
            w₃'.length ≤ w₃.length ∧
              (w₃'.length = w₃.length →
                loc'.length ≤ (b.data ++ '/' :: k.data).length))) := by
  refine ⟨by rfl, ?_, ?_⟩
  · intro msg
    constructor
    · rintro herr ⟨loc', hmatch⟩
      obtain ⟨pre, w₃, w₁, w₂, post, hmsg, c1, c2, c3, c4, c5, c6, c7, c8⟩ := hmatch
      have hsuf : msg.data = pre ++ ("Report".data ++ w₁ ++ "available".data ++ w₂
          ++ "at".data ++ w₃ ++ loc' ++ '.' :: post) := by
        rw [hmsg]
        simp [List.append_assoc]
      have hsearch : searchReportLoc msg.data ≠ none :=
        searchReportLoc_complete msg.data pre _ hsuf
          (matchKeywordAt_complete w₁ w₂ w₃ loc' post c1 c2 c3 c4 c5 c6 c7 c8)
      rcases hs : searchReportLoc msg.data with _ | loc₀
      · exact hsearch hs
      · rcases hsp : splitFirstList ['/'] loc₀ with _ | ⟨bd, kd⟩
        · rw [extract_eq_unpack hs hsp] at herr
          cases herr
        · rw [extract_eq_ok hs hsp] at herr
          cases herr
    · intro hno
      rcases hs : searchReportLoc msg.data with _ | loc₀
      · exact extract_eq_notfound hs
      · exfalso
        obtain ⟨pre, suf, hpre, hmatch, _⟩ := searchReportLoc_sound hs
        obtain ⟨w₁, w₂, w₃, post, hsuf, c1, c2, c3, c4, c5, c6, c7, c8, _⟩ :=
          matchKeywordAt_sound hmatch
        apply hno
        refine ⟨loc₀, pre, w₃, w₁, w₂, post, ?_, c1, c2, c3, c4, c5, c6, c7, c8⟩
        rw [hpre, hsuf]
        simp [List.append_assoc]
  · intro msg b k hok
    rcases hs : searchReportLoc msg.data with _ | loc₀
    · rw [extract_eq_notfound hs] at hok
      cases hok
    · rcases hsp : splitFirstList ['/'] loc₀ with _ | ⟨bd, kd⟩
      · rw [extract_eq_unpack hs hsp] at hok
        cases hok
      · rw [extract_eq_ok hs hsp] at hok
        simp only [Except.ok.injEq, Prod.mk.injEq] at hok
        obtain ⟨hb, hk⟩ := hok
        have hrec : bd ++ ['/'] ++ kd = loc₀ :=
          splitFirst_reconstruct ['/'] loc₀ bd kd hsp
        have hbd : b.data = bd := by rw [← hb]
        have hkd : k.data = kd := by rw [← hk]
        have hloc : loc₀ = b.data ++ '/' :: k.data := by
          rw [hbd, hkd, ← hrec]
          simp
        refine ⟨?_, ?_⟩
        · rw [hbd]
          exact splitFirst_single_not_mem '/' loc₀ bd kd hsp
        · obtain ⟨pre, suf, hpre, hmatch, hmin⟩ := searchReportLoc_sound hs
          obtain ⟨w₁, w₂, w₃, post, hsuf, c1, c2, c3, c4, c5, c6, c7, c8, hcmp⟩ :=
            matchKeywordAt_sound hmatch
          refine ⟨pre, w₃, ⟨w₁, w₂, post, ?_, c1, c2, c3, c4, c5, c6,
            by rw [← hloc]; exact c7, by rw [← hloc]; exact c8⟩, ?_⟩
          · rw [hpre, hsuf, hloc]
            simp [List.append_assoc]
          · rintro pre' w₃' loc' ⟨w₁', w₂', post', hmsg', d1, d2, d3, d4, d5, d6, d7, d8⟩
            have hsuf' : msg.data = pre' ++ ("Report".data ++ w₁' ++ "available".data
                ++ w₂' ++ "at".data ++ w₃' ++ loc' ++ '.' :: post') := by
              rw [hmsg']
              simp [List.append_assoc]
            have hminle : pre.length ≤ pre'.length :=
              hmin pre' _ hsuf'
                (matchKeywordAt_complete w₁' w₂' w₃' loc' post' d1 d2 d3 d4 d5 d6 d7 d8)
            refine ⟨hminle, ?_⟩
            intro hpeq
            have hcomb : pre ++ suf = pre' ++ ("Report".data ++ w₁' ++ "available".data
                ++ w₂' ++ "at".data ++ w₃' ++ loc' ++ '.' :: post') := by
              rw [← hpre]
              exact hsuf'
            obtain ⟨_, hss⟩ := List.append_inj hcomb hpeq.symm
            have hEq : "Report".data ++ (w₁ ++ ("available".data ++ (w₂ ++ ("at".data
                ++ (w₃ ++ (loc₀ ++ '.' :: post)))))) =
                "Report".data ++ (w₁' ++ ("available".data ++ (w₂' ++ ("at".data
                ++ (w₃' ++ (loc' ++ '.' :: post')))))) := by
              have hcc := hsuf.symm.trans hss
              simpa [List.append_assoc] using hcc
            have hT : w₃ ++ (loc₀ ++ '.' :: post) = w₃' ++ (loc' ++ '.' :: post') :=
              decomp_forcing c2 d2 c4 d4 hEq
            have hT' : w₃ ++ loc₀ ++ '.' :: post = w₃' ++ loc' ++ '.' :: post' := by
              simpa [List.append_assoc] using hT
            have hfin := hcmp w₃' loc' post' hT' d5 d6 d7 d8
            rw [← hloc]
            exact hfin

/-- **C7, witness.** The success clause applied at the concrete message:
the bucket part contains no slash and the message decomposes around
`my-bucket/reports/r.json` at a start position, final whitespace run and
location length that dominate every competing match of the pattern. -/
theorem claim7_extract_report_location_witness :
    '/' ∉ ("my-bucket" : String).data ∧
    ∃ pre w₃,
      ReportLocMatchParts
        ("Report available at my-bucket/reports/r.json." : String).data pre w₃
        (("my-bucket" : String).data ++ '/' :: ("reports/r.json" : String).data) ∧
      ∀ pre' w₃' loc',
        ReportLocMatchParts
          ("Report available at my-bucket/reports/r.json." : String).data
          pre' w₃' loc' →
        pre.length ≤ pre'.length ∧
        (pre'.length = pre.length →
          w₃'.length ≤ w₃.length ∧
            (w₃'.length = w₃.length →
              loc'.length ≤ (("my-bucket" : String).data
                ++ '/' :: ("reports/r.json" : String).data).length)) :=
  claim7_extract_report_location.2.2
    "Report available at my-bucket/reports/r.json." "my-bucket" "reports/r.json"
    (by rfl)

end HlsReconciliation
